import Mathlib

/-!
Shallow embedding of the k-bucket routing-table core of the `mainline` crate
(`src/kbucket.rs`).  Identifiers are byte sequences modelled as `List Nat`
(each element is one `u8` value); the `usize` accumulator of the XOR distance
is modelled as a natural number reduced modulo `2 ^ 64`.  Rust panics
(out-of-bounds indexing inside `determine_node`) are modelled by `Option` /
`Res.oob`; the one non-structural recursion of the source (`add` splitting a
leaf and then re-invoking itself from the root) is modelled with explicit
fuel, with `Res.noFuel` marking fuel exhaustion of the model.
-/

namespace Mainline

/-- Width of the `usize` accumulator used by `xor_distance` (64-bit platform). -/
def usizeSize : Nat := 2 ^ 64

/-- One wrapping step `acc.wrapping_mul(256).wrapping_add(byte)` of the distance fold. -/
def wrapStep (acc byte : Nat) : Nat := (acc * 256 % usizeSize + byte) % usizeSize

/-- Embeds `xor_distance` from `src/kbucket.rs`: fold `acc = acc * 256 + (a XOR b)`
(wrapping) over the common length, then pad the length difference with `0xFF` bytes. -/
def xor_distance (first_id second_id : List Nat) : Nat :=
  let mn := min first_id.length second_id.length
  let mx := max first_id.length second_id.length
  let d := (first_id.zip second_id).foldl (fun acc p => wrapStep acc (p.1 ^^^ p.2)) 0
  (List.range (mx - mn)).foldl (fun acc _ => wrapStep acc 255) d

/-- Branch selector of the binary trie (`enum Direction`). -/
inductive Direction where
  | Left
  | Right
deriving DecidableEq, Repr

/-- Embeds `determine_node` from `src/kbucket.rs`.  Returns `none` where the Rust
code would panic with an out-of-bounds index (identifier exhausted exactly at a
byte boundary); otherwise: too-short identifiers go left, else the bit
`7 - bit_index % 8` of byte `bit_index / 8` decides the branch. -/
def determine_node (id : List Nat) (bit_index : Nat) : Option Direction :=
  let bytes_described := bit_index / 8
  let bit_in_byte := bit_index % 8
  if id.length ≤ bytes_described ∧ bit_in_byte ≠ 0 then
    some Direction.Left
  else
    match id.get? bytes_described with
    | none => none
    | some byte =>
      if byte &&& (1 <<< (7 - bit_in_byte)) > 0 then some Direction.Right
      else some Direction.Left

/-- A contact: the identifier plus the data that is opaque to the trie
(network address and token in the concrete `tables.rs` contact). -/
structure Contact where
  id : List Nat
  data : Nat
deriving DecidableEq, Repr

/-- Default replacement policy of the `Contact` trait: always `true`. -/
def Contact.should_replace (_self _other : Contact) : Bool := true

/-- Trie node (`enum Node`): an inner node owning two children, or a leaf
holding an ordered contact list and the freeze flag. -/
inductive Node where
  | Inner (left right : Node)
  | Leaf (contacts : List Contact) (dont_split : Bool)
deriving DecidableEq, Repr

/-- The k-bucket routing table (`struct Kbucket`). -/
structure Kbucket where
  node_id : List Nat
  nodes_per_kbucket : Nat
  nodes_to_ping : Nat
  root : Node
deriving DecidableEq, Repr

/-- Embeds `Kbucket::new`: defaults are 20 contacts per bucket and 3 ping candidates. -/
def Kbucket.new (node_id : List Nat) (nodes_per_kbucket nodes_to_ping : Option Nat) : Kbucket :=
  ⟨node_id, nodes_per_kbucket.getD 20, nodes_to_ping.getD 3, Node.Leaf [] false⟩

/-- Embeds `index_of`: the first position whose contact id equals `id`. -/
def index_of (contacts : List Contact) (id : List Nat) : Option Nat :=
  contacts.findIdx? (fun c => c.id == id)

/-- Embeds `update`: with the (always-true) default replacement policy the
incumbent at `index` is removed and the fresh contact is appended at the tail. -/
def update (contacts : List Contact) (index : Nat) (contact : Contact) : List Contact :=
  match contacts.get? index with
  | none => contacts
  | some incumbent =>
    let sr := incumbent.should_replace contact
    if sr = false ∧ incumbent ≠ contact then contacts
    else
      let pruned := contacts.eraseIdx index
      let to_insert := if sr then contact else incumbent
      pruned ++ [to_insert]

/-- Events of the original design.  Every `emit` call site in `src/kbucket.rs`
(`added`, `updated`, `removed`, `ping`) is commented out, so the embedded
operations never produce one; the type records what the signals would carry. -/
inductive Event where
  | added (contact : Contact)
  | updated (incumbent contact : Contact)
  | removed (contact : Contact)
  | ping (contacts : List Contact) (pending : Contact)
deriving DecidableEq, Repr

/-- Redistribution loop of `split`: route every contact through
`determine_node` at `bit_index`; `none` when one of those calls panics. -/
def distribute : List Contact → Nat → Option (List Contact × List Contact)
  | [], _ => some ([], [])
  | c :: rest, bit_index =>
    match determine_node c.id bit_index, distribute rest bit_index with
    | some Direction.Left, some (l, r) => some (c :: l, r)
    | some Direction.Right, some (l, r) => some (l, c :: r)
    | _, _ => none

/-- Embeds `split`: redistribute the contacts, then freeze (`dont_split`) the
child on the side the local node id does not fall on. -/
def split (node_id : List Nat) (contacts : List Contact) (bit_index : Nat) : Option Node :=
  match distribute contacts bit_index, determine_node node_id bit_index with
  | some (l, r), some self_direction =>
    some (Node.Inner
      (Node.Leaf l (self_direction = Direction.Right))
      (Node.Leaf r (self_direction = Direction.Left)))
  | _, _ => none

/-- Result of an embedded mutation: success, a modelled Rust panic (`oob`), or
fuel exhaustion of the model (`noFuel`, shown unreachable on well-formed input). -/
inductive Res (α : Type) where
  | ok (value : α)
  | oob
  | noFuel
deriving DecidableEq, Repr

/-- One pass of `Kbucket::add`: walk to the leaf owning `contact.id`; update an
existing identity, append when there is capacity, drop silently on a full
frozen leaf (the `ping` emit is commented out in the source), otherwise split
in place and report that the add must be retried. -/
def addPass (node_id : List Nat) (k : Nat) (contact : Contact) :
    Node → Nat → Option (Node × Bool × List Event)
  | Node.Inner left right, bit_index =>
    match determine_node contact.id bit_index with
    | none => none
    | some Direction.Left =>
      (addPass node_id k contact left (bit_index + 1)).map
        (fun p => (Node.Inner p.1 right, p.2.1, p.2.2))
    | some Direction.Right =>
      (addPass node_id k contact right (bit_index + 1)).map
        (fun p => (Node.Inner left p.1, p.2.1, p.2.2))
  | Node.Leaf contacts dont_split, bit_index =>
    match index_of contacts contact.id with
    | some index =>
      some (Node.Leaf (update contacts index contact) dont_split, false, [])
    | none =>
      if contacts.length < k then
        some (Node.Leaf (contacts ++ [contact]) dont_split, false, [])
      else if dont_split then
        some (Node.Leaf contacts dont_split, false, [])
      else
        (split node_id contacts bit_index).map (fun n => (n, true, []))

/-- Retry loop of `Kbucket::add`: the source re-invokes `add` from the root
after a split; each such restart consumes one unit of fuel. -/
def addLoop : Nat → Kbucket → Contact → Res (Kbucket × List Event)
  | 0, _, _ => Res.noFuel
  | fuel + 1, kb, contact =>
    match addPass kb.node_id kb.nodes_per_kbucket contact kb.root 0 with
    | none => Res.oob
    | some (root', retry, evs) =>
      let kb' : Kbucket := ⟨kb.node_id, kb.nodes_per_kbucket, kb.nodes_to_ping, root'⟩
      if retry then addLoop fuel kb' contact else Res.ok (kb', evs)

/-- Embeds `Kbucket::add`.  The fuel is an upper bound on the number of restart
passes: each retry deepens the walk by one level, and the walk depth is bounded
by the identifier bit lengths. -/
def Kbucket.add (kb : Kbucket) (contact : Contact) : Res (Kbucket × List Event) :=
  addLoop (8 * contact.id.length + 8 * kb.node_id.length + 2) kb contact

/-- The leaf-walk shared by `remove`, `get` and the first phase of `add`:
follow `determine_node` from bit 0 down to the owning leaf. -/
def walkNode : Node → List Nat → Nat → Option (List Contact × Bool)
  | Node.Leaf contacts dont_split, _, _ => some (contacts, dont_split)
  | Node.Inner left right, id, bit_index =>
    match determine_node id bit_index with
    | none => none
    | some Direction.Left => walkNode left id (bit_index + 1)
    | some Direction.Right => walkNode right id (bit_index + 1)

/-- Depth of the leaf reached by the walk for `id` (the bit index at the leaf). -/
def walkDepth : Node → List Nat → Nat → Nat
  | Node.Leaf _ _, _, bit_index => bit_index
  | Node.Inner left right, id, bit_index =>
    match determine_node id bit_index with
    | none => bit_index
    | some Direction.Left => walkDepth left id (bit_index + 1)
    | some Direction.Right => walkDepth right id (bit_index + 1)

/-- Structural rebuild used to embed `Kbucket::remove`: erase the matching
contact from the owning leaf. -/
def removeNode : Node → List Nat → Nat → Option Node
  | Node.Leaf contacts dont_split, id, _ =>
    some (Node.Leaf
      (match index_of contacts id with
       | some index => contacts.eraseIdx index
       | none => contacts) dont_split)
  | Node.Inner left right, id, bit_index =>
    match determine_node id bit_index with
    | none => none
    | some Direction.Left =>
      (removeNode left id (bit_index + 1)).map (fun l => Node.Inner l right)
    | some Direction.Right =>
      (removeNode right id (bit_index + 1)).map (fun r => Node.Inner left r)

/-- Embeds `Kbucket::remove` (the `removed` emit is commented out in the source). -/
def Kbucket.remove (kb : Kbucket) (id : List Nat) : Option Kbucket :=
  (removeNode kb.root id 0).map
    (fun root' => ⟨kb.node_id, kb.nodes_per_kbucket, kb.nodes_to_ping, root'⟩)

/-- Embeds `Kbucket::get`: walk to the owning leaf, then look the id up there. -/
def Kbucket.get (kb : Kbucket) (id : List Nat) : Option (Option Contact) :=
  (walkNode kb.root id 0).map (fun p => (index_of p.1 id).bind (fun i => p.1.get? i))

/-- Contact count of a node, used as the termination measure of the stack loops. -/
def Node.size : Node → Nat
  | Node.Inner left right => left.size + right.size + 1
  | Node.Leaf _ _ => 1

/-- Combined size of a node stack. -/
def nodesSize (nodes : List Node) : Nat := (nodes.map Node.size).sum

/-- Every contact of a subtree, leaves left to right. -/
def Node.allContacts : Node → List Contact
  | Node.Inner left right => left.allContacts ++ right.allContacts
  | Node.Leaf contacts _ => contacts

/-- Every contact stored under a stack of nodes. -/
def nodesContacts : List Node → List Contact
  | [] => []
  | node :: rest => node.allContacts ++ nodesContacts rest

/-- Stack loop of `Kbucket::len`: pop a node, push children of inner nodes
(left first, so the right child is counted first), add leaf counts.  Every
iteration shrinks the combined stack size by one, so the explicit fuel
`nodesSize` of the initial stack is exact and the fuel-out branch is dead
(shown by `lenLoop_exact`). -/
def lenLoop : Nat → List Node → Nat → Nat
  | _, [], count => count
  | 0, _ :: _, count => count
  | fuel + 1, node :: rest, count =>
    match node with
    | Node.Inner left right => lenLoop fuel (right :: left :: rest) count
    | Node.Leaf contacts _ => lenLoop fuel rest (count + contacts.length)

/-- Embeds `Kbucket::len`. -/
def Kbucket.len (kb : Kbucket) : Nat := lenLoop (nodesSize [kb.root]) [kb.root] 0

/-- Early-stop test of the gathering loop of `closest`: `contacts.len() >= n`. -/
def breakCheck (n : Option Nat) (len : Nat) : Bool :=
  match n with
  | some n' => decide (n' ≤ len)
  | none => false

/-- Gathering loop of `Kbucket::closest`: pop a node (stopping as soon as `n`
candidates are gathered); at an inner node push the child on the target's side
on top and advance the single shared bit index; at a leaf take every contact.
The result is `none` where `determine_node` would panic.  As in `lenLoop` the
fuel `nodesSize` of the initial stack is exact and its exhaustion branch is
dead (shown by `closestGather_total`). -/
def closestGather (id : List Nat) (n : Option Nat) :
    Nat → List Node → Nat → List Contact → Option (List Contact)
  | _, [], _, acc => some acc
  | 0, _ :: _, _, _ => none
  | fuel + 1, node :: rest, bit_index, acc =>
    if breakCheck n acc.length then some acc
    else
      match node with
      | Node.Inner left right =>
        match determine_node id bit_index with
        | none => none
        | some Direction.Left =>
          closestGather id n fuel (left :: right :: rest) (bit_index + 1) acc
        | some Direction.Right =>
          closestGather id n fuel (right :: left :: rest) (bit_index + 1) acc
      | Node.Leaf contacts _ => closestGather id n fuel rest bit_index (acc ++ contacts)

/-- Insertion step of the stable comparison sort modelling `sort_by`. -/
def orderedInsertByDist (id : List Nat) (c : Contact) : List Contact → List Contact
  | [] => [c]
  | x :: xs =>
    if xor_distance c.id id ≤ xor_distance x.id id then c :: x :: xs
    else x :: orderedInsertByDist id c xs

/-- Stable sort by ascending XOR distance to `id`, modelling the call
`contacts.sort_by(|a, b| a.distance(&id).cmp(&b.distance(&id)))`. -/
def sortByDist (id : List Nat) : List Contact → List Contact
  | [] => []
  | c :: cs => orderedInsertByDist id c (sortByDist id cs)

/-- Embeds `Kbucket::closest`: gather candidates, sort them by ascending XOR
distance to the target, then truncate to `n`. -/
def Kbucket.closest (kb : Kbucket) (id : List Nat) (n : Option Nat) : Option (List Contact) :=
  (closestGather id n (nodesSize [kb.root]) [kb.root] 0 []).map (fun contacts =>
    let sorted := sortByDist id contacts
    match n with
    | some n' => sorted.take n'
    | none => sorted)

/-- Loop of the `Iter` iterator: pop a node, push `left` then `right` (so the
right subtree is emitted first), yield leaf contacts in order.  The fuel
`nodesSize` of the initial stack is exact (shown by `iterLoop_exact`). -/
def iterLoop : Nat → List Node → List Contact
  | _, [] => []
  | 0, _ :: _ => []
  | fuel + 1, node :: rest =>
    match node with
    | Node.Inner left right => iterLoop fuel (right :: left :: rest)
    | Node.Leaf contacts _ => contacts ++ iterLoop fuel rest

/-- Embeds `Kbucket::iter` run to exhaustion. -/
def Kbucket.iterate (kb : Kbucket) : List Contact := iterLoop (nodesSize [kb.root]) [kb.root]

/-- A mutating call of the public interface. -/
inductive Op where
  | addC (contact : Contact)
  | removeC (id : List Nat)
deriving DecidableEq, Repr

/-- Applies one mutating call. -/
def applyOp (kb : Kbucket) : Op → Res Kbucket
  | Op.addC contact =>
    match kb.add contact with
    | Res.ok (kb', _) => Res.ok kb'
    | Res.oob => Res.oob
    | Res.noFuel => Res.noFuel
  | Op.removeC id =>
    match kb.remove id with
    | some kb' => Res.ok kb'
    | none => Res.oob

/-- Applies a sequence of mutating calls, propagating modelled panics. -/
def applyOps : Kbucket → List Op → Res Kbucket
  | kb, [] => Res.ok kb
  | kb, op :: rest =>
    match applyOp kb op with
    | Res.ok kb' => applyOps kb' rest
    | Res.oob => Res.oob
    | Res.noFuel => Res.noFuel

/-- Byte length of the identifier carried by a mutating call. -/
def Op.idLen (len : Nat) : Op → Prop
  | Op.addC contact => contact.id.length = len
  | Op.removeC id => id.length = len

/-- Tests whether a node is a leaf. -/
def Node.isLeaf : Node → Bool
  | Node.Leaf _ _ => true
  | Node.Inner _ _ => false

/-- Pairwise distinctness of the identities stored in one leaf. -/
def distinctIds : List Contact → Bool
  | [] => true
  | c :: rest => rest.all (fun x => decide (x.id ≠ c.id)) && distinctIds rest

/-- Routing invariant: every contact sits on the side of each inner node that
`determine_node` assigns to its identity, and leaf contents are duplicate-free. -/
def routeInv : Node → Nat → Bool
  | Node.Leaf contacts _, _ => distinctIds contacts
  | Node.Inner left right, bit_index =>
    left.allContacts.all (fun c => decide (determine_node c.id bit_index = some Direction.Left)) &&
    right.allContacts.all (fun c => decide (determine_node c.id bit_index = some Direction.Right)) &&
    routeInv left (bit_index + 1) && routeInv right (bit_index + 1)

/-- Freeze-flag invariant: a leaf carries `dont_split = true` exactly when its
path from the root has left the local node id's own bit path. -/
def flagInv (node_id : List Nat) : Node → Nat → Bool → Bool
  | Node.Leaf _ dont_split, _, on_path => dont_split == !on_path
  | Node.Inner left right, bit_index, on_path =>
    match determine_node node_id bit_index with
    | none => false
    | some d =>
      flagInv node_id left (bit_index + 1) (on_path && decide (d = Direction.Left)) &&
      flagInv node_id right (bit_index + 1) (on_path && decide (d = Direction.Right))

/-- Spine invariant of reachable tries: inner nodes only occur along the local
node id's bit path, below the identifier bit length; the off-path child of
every inner node is a leaf. -/
def spineInv (len : Nat) (node_id : List Nat) : Node → Nat → Bool
  | Node.Leaf _ _, _ => true
  | Node.Inner left right, bit_index =>
    decide (bit_index < 8 * len) &&
    match determine_node node_id bit_index with
    | none => false
    | some Direction.Left => spineInv len node_id left (bit_index + 1) && right.isLeaf
    | some Direction.Right => left.isLeaf && spineInv len node_id right (bit_index + 1)

/-- Well-formedness of one identifier: fixed byte length and genuine `u8` values. -/
def idOK (len : Nat) (id : List Nat) : Bool :=
  decide (id.length = len) && id.all (fun byte => decide (byte < 256))

/-- Well-formedness of every identifier stored in a subtree. -/
def idsOK (len : Nat) : Node → Bool
  | Node.Leaf contacts _ => contacts.all (fun c => idOK len c.id)
  | Node.Inner left right => idsOK len left && idsOK len right

/-- Well-formed Kbucket over identifiers of byte length `len`: the state
invariants that hold for every table reachable from `Kbucket.new`. -/
def Inv (len : Nat) (kb : Kbucket) : Prop :=
  kb.node_id.length = len ∧ 1 ≤ kb.nodes_per_kbucket ∧
  routeInv kb.root 0 = true ∧ flagInv kb.node_id kb.root 0 true = true ∧
  spineInv len kb.node_id kb.root 0 = true ∧ idsOK len kb.root = true

/-- Successful value of a mutation result, if any. -/
def Res.toOption {α : Type} : Res α → Option α
  | Res.ok value => some value
  | Res.oob => none
  | Res.noFuel => none

/-- Scenario of the test `test_closest_nodes_are_returned`: local id `[0x00]`,
default bounds, the 18 single-byte identities `0x00 .. 0x11` added in order. -/
def scenarioA : Res Kbucket :=
  applyOps (Kbucket.new [0x00] none none) ((List.range 18).map (fun i => Op.addC ⟨[i], 0⟩))

/-- A reachable two-leaf table with `k = 1`: the right leaf `[0x80]` is full and
frozen, built by adding `0x80` and then `0x40` with local id `0x00`. -/
def frozenFullKb : Kbucket :=
  ⟨[0x00], 1, 3, Node.Inner (Node.Leaf [⟨[0x40], 0⟩] false) (Node.Leaf [⟨[0x80], 0⟩] true)⟩

/-! ### Lemmas about the distance metric -/

theorem zip_xor_foldl_comm (a : List Nat) : ∀ (b : List Nat) (s : Nat),
    (a.zip b).foldl (fun acc p => wrapStep acc (p.1 ^^^ p.2)) s =
    (b.zip a).foldl (fun acc p => wrapStep acc (p.1 ^^^ p.2)) s := by
  induction a with
  | nil => intro b s; cases b <;> simp
  | cons x xs ih =>
    intro b s
    cases b with
    | nil => simp
    | cons y ys =>
      simp only [List.zip_cons_cons, List.foldl_cons]
      rw [Nat.xor_comm x y]
      exact ih ys _

theorem zip_self_foldl_zero (a : List Nat) :
    (a.zip a).foldl (fun acc p => wrapStep acc (p.1 ^^^ p.2)) 0 = 0 := by
  induction a with
  | nil => simp
  | cons x xs ih => simpa [wrapStep, usizeSize, Nat.xor_self] using ih

/-- C7: for all equal-length identifiers `a` and `b` within the accumulator's
safe width, `distance(a, b) = distance(b, a)`; and `distance(a, a) = 0` for
every identifier `a`. -/
theorem C7_distance_symm_and_self_zero :
    (∀ a b : List Nat, a.length = b.length → 8 * a.length ≤ 64 →
      xor_distance a b = xor_distance b a) ∧
    (∀ a : List Nat, xor_distance a a = 0) := by
  constructor
  · intro a b _ _
    simp [xor_distance, Nat.min_comm, Nat.max_comm, zip_xor_foldl_comm]
  · intro a
    simp [xor_distance, zip_self_foldl_zero]

/-- Witness for C7 at the concrete identifiers `[1, 2]`, `[3, 4]` and `[9]`. -/
theorem C7_distance_symm_and_self_zero_witness :
    xor_distance [1, 2] [3, 4] = xor_distance [3, 4] [1, 2] ∧ xor_distance [9] [9] = 0 :=
  ⟨C7_distance_symm_and_self_zero.1 [1, 2] [3, 4] rfl (by decide),
   C7_distance_symm_and_self_zero.2 [9]⟩

/-! ### Lemmas about the bit-addressing rule -/

/-- C9: the bit-addressing function is partial: when the identifier is exhausted
exactly at a byte boundary (`bit_index % 8 = 0` and the byte length equals
`bit_index / 8`), `determine_node` indexes past the identifier's end and the
Rust code panics (modelled as `none`); the route-left rule for short
identifiers applies only when `bit_index % 8 ≠ 0`; consequently `get` on the
short identifier `[0x00]` in a reachable depth-9 trie panics. -/
theorem C9_determine_node_partiality :
    (∀ (id : List Nat) (b : Nat), b % 8 = 0 → id.length = b / 8 →
      determine_node id b = none) ∧
    (∀ (id : List Nat) (b : Nat), b % 8 ≠ 0 → id.length ≤ b / 8 →
      determine_node id b = some Direction.Left) ∧
    (applyOps (Kbucket.new [0, 0] (some 1) none)
        [Op.addC ⟨[0, 0], 0⟩, Op.addC ⟨[0, 128], 0⟩] |>.toOption.map
      (fun kb => kb.get [0])) = some none := by
  refine ⟨?_, ?_, by decide⟩
  · intro id b hmod hlen
    simp [determine_node, hmod, List.get?_eq_getElem?, List.getElem?_eq_none hlen.le]
  · intro id b hmod hlen
    simp [determine_node, hmod, hlen]

/-- Witness for C9: the panic case and the route-left case at `id = [5]`,
`bit_index = 8` and `9` respectively. -/
theorem C9_determine_node_partiality_witness :
    determine_node [5] 8 = none ∧ determine_node [5] 9 = some Direction.Left :=
  ⟨C9_determine_node_partiality.1 [5] 8 rfl rfl,
   C9_determine_node_partiality.2.1 [5] 9 (by decide) (by decide)⟩

/-- C6: starting from a fresh Kbucket with local id `[0x00]` and default
bounds, after adding the 18 identities `0x00 .. 0x11` the root is still one
leaf, and `closest([0x15], 3)` returns the contacts `0x11, 0x10, 0x05` in that
order. -/
theorem C6_concrete_closest_scenario :
    scenarioA.toOption.map (fun kb => (kb.root.isLeaf, kb.closest [0x15] (some 3))) =
      some (true, some [⟨[0x11], 0⟩, ⟨[0x10], 0⟩, ⟨[0x05], 0⟩]) := by
  decide

/-- Counterexample to C4 as stated: in the reachable state `frozenFullKb` the
add of `0xC0` reaches the full frozen leaf `[[0x80]]` and leaves the whole
state unchanged, but the event trace is empty — no ping notification carrying
the oldest `nodes_to_ping` contacts is signaled, because every `emit` call of
the source is commented out. -/
theorem C4_no_ping_counterexample :
    applyOps (Kbucket.new [0x00] (some 1) none)
        [Op.addC ⟨[0x80], 0⟩, Op.addC ⟨[0x40], 0⟩] = Res.ok frozenFullKb ∧
    frozenFullKb.add ⟨[0xC0], 0⟩ = Res.ok (frozenFullKb, []) := by
  decide

/-! ### Lemmas about `index_of` -/

theorem findIdx?_none_iff {α : Type} (p : α → Bool) :
    ∀ (xs : List α) (i : Nat), (xs.findIdx? p i = none ↔ ∀ x ∈ xs, p x = false) := by
  intro xs
  induction xs with
  | nil => simp
  | cons x xs ih =>
    intro i
    rw [List.findIdx?_cons]
    by_cases h : p x <;> simp [h, ih]

theorem findIdx?_some_spec {α : Type} (p : α → Bool) :
    ∀ (xs : List α) (i j : Nat), xs.findIdx? p i = some j →
      i ≤ j ∧ ∃ x, xs.get? (j - i) = some x ∧ p x = true := by
  intro xs
  induction xs with
  | nil => intro i j h; simp at h
  | cons a xs ih =>
    intro i j h
    rw [List.findIdx?_cons] at h
    by_cases hp : p a = true
    · rw [if_pos hp] at h
      obtain rfl : i = j := Option.some.inj h
      exact ⟨Nat.le_refl i, a, by simp, hp⟩
    · rw [if_neg hp] at h
      obtain ⟨hij, x, hx, hpx⟩ := ih (i + 1) j h
      refine ⟨Nat.le_of_succ_le hij, x, ?_, hpx⟩
      have hj : j - i = (j - (i + 1)) + 1 := by omega
      rw [hj]
      simpa using hx

/-- Unfolded meaning of a failed `index_of` search. -/
theorem index_of_none_iff (cs : List Contact) (id : List Nat) :
    index_of cs id = none ↔ ∀ c ∈ cs, c.id ≠ id := by
  rw [index_of, findIdx?_none_iff]
  simp

/-- A successful `index_of` search yields a valid position holding the id. -/
theorem index_of_some (cs : List Contact) (id : List Nat) (j : Nat)
    (h : index_of cs id = some j) : ∃ c, cs.get? j = some c ∧ c.id = id := by
  obtain ⟨-, c, hc, hpc⟩ := findIdx?_some_spec _ cs 0 j h
  exact ⟨c, by simpa using hc, by simpa using hpc⟩

/-- With the default always-replace policy, `update` erases the incumbent and
appends the fresh contact at the tail. -/
theorem update_eq (cs : List Contact) (j : Nat) (c incumbent : Contact)
    (h : cs.get? j = some incumbent) :
    update cs j c = cs.eraseIdx j ++ [c] := by
  simp only [update, h]
  simp [Contact.should_replace]

/-- The refresh performed by `update` never changes the number of contacts. -/
theorem update_length (cs : List Contact) (j : Nat) (c incumbent : Contact)
    (h : cs.get? j = some incumbent) : (update cs j c).length = cs.length := by
  have hj : j < cs.length := by
    rw [List.get?_eq_getElem?] at h
    exact (List.getElem?_eq_some.mp h).1
  rw [update_eq cs j c incumbent h]
  simp [List.length_eraseIdx, hj]
  omega

/-! ### Exactness of the fuel of the stack loops -/

theorem Node.size_pos (n : Node) : 1 ≤ n.size := by
  cases n <;> simp [Node.size]

theorem lenLoop_exact :
    ∀ (fuel : Nat) (nodes : List Node) (count : Nat), nodesSize nodes ≤ fuel →
      lenLoop fuel nodes count = count + (nodes.map (fun n => n.allContacts.length)).sum := by
  intro fuel
  induction fuel with
  | zero =>
    intro nodes count h
    match nodes with
    | [] => simp [lenLoop]
    | n :: rest =>
      exfalso
      have := Node.size_pos n
      simp [nodesSize] at h
      omega
  | succ fuel ih =>
    intro nodes count h
    match nodes with
    | [] => simp [lenLoop]
    | Node.Inner l r :: rest =>
      have hsz : nodesSize (r :: l :: rest) ≤ fuel := by
        simp [nodesSize, Node.size] at h ⊢
        omega
      rw [lenLoop, ih _ _ hsz]
      simp [Node.allContacts]
      omega
    | Node.Leaf cs ds :: rest =>
      have hsz : nodesSize rest ≤ fuel := by
        simp [nodesSize, Node.size] at h ⊢
        omega
      rw [lenLoop, ih _ _ hsz]
      simp [Node.allContacts]
      omega

/-- The contact count of a Kbucket is the total number of stored contacts. -/
theorem len_eq_allContacts_length (kb : Kbucket) :
    kb.len = kb.root.allContacts.length := by
  rw [Kbucket.len, lenLoop_exact _ _ _ (Nat.le_refl _)]
  simp

/-! ### The walk performed by add on an already-stored identity (C5) -/

theorem addPass_found (nid : List Nat) (k : Nat) (c : Contact) :
    ∀ (n : Node) (b : Nat) (cs : List Contact) (ds : Bool) (j : Nat),
      walkNode n c.id b = some (cs, ds) → index_of cs c.id = some j →
      ∃ n', addPass nid k c n b = some (n', false, []) ∧
        walkNode n' c.id b = some (update cs j c, ds) ∧
        n'.allContacts.length = n.allContacts.length := by
  intro n
  induction n with
  | Leaf contacts dont_split =>
    intro b cs ds j hwalk hidx
    rw [walkNode] at hwalk
    obtain ⟨rfl, rfl⟩ : contacts = cs ∧ dont_split = ds := by
      simpa using hwalk
    refine ⟨Node.Leaf (update contacts j c) dont_split, ?_, by rw [walkNode], ?_⟩
    · rw [addPass, hidx]
    · obtain ⟨inc, hinc, -⟩ := index_of_some contacts c.id j hidx
      simp [Node.allContacts, update_length contacts j c inc hinc]
  | Inner left right ihl ihr =>
    intro b cs ds j hwalk hidx
    rw [walkNode] at hwalk
    rw [addPass]
    match hdn : determine_node c.id b with
    | none => rw [hdn] at hwalk; exact absurd hwalk (by simp)
    | some Direction.Left =>
      rw [hdn] at hwalk
      obtain ⟨l', hpass, hwalk', hlen⟩ := ihl (b + 1) cs ds j hwalk hidx
      refine ⟨Node.Inner l' right, ?_, ?_, ?_⟩
      · simp [hpass]
      · rw [walkNode, hdn]; exact hwalk'
      · simp [Node.allContacts, hlen]
    | some Direction.Right =>
      rw [hdn] at hwalk
      obtain ⟨r', hpass, hwalk', hlen⟩ := ihr (b + 1) cs ds j hwalk hidx
      refine ⟨Node.Inner left r', ?_, ?_, ?_⟩
      · simp [hpass]
      · rw [walkNode, hdn]; exact hwalk'
      · simp [Node.allContacts, hlen]

/-- Unfolding of one non-retrying pass of the add loop. -/
theorem addLoop_one (fuel : Nat) (kb : Kbucket) (c : Contact) (n' : Node) (evs : List Event)
    (h : addPass kb.node_id kb.nodes_per_kbucket c kb.root 0 = some (n', false, evs)) :
    addLoop (fuel + 1) kb c =
      Res.ok (⟨kb.node_id, kb.nodes_per_kbucket, kb.nodes_to_ping, n'⟩, evs) := by
  rw [addLoop, h]
  rfl

/-- C5: adding a contact whose identity is already stored in the owning leaf
keeps `len` unchanged and refreshes that identity to the tail of the leaf,
because the default replacement policy approves replacement unconditionally. -/
theorem C5_existing_identity_refresh_to_tail :
    ∀ (kb : Kbucket) (c : Contact) (cs : List Contact) (ds : Bool) (j : Nat),
      walkNode kb.root c.id 0 = some (cs, ds) → index_of cs c.id = some j →
      ∃ kb', kb.add c = Res.ok (kb', []) ∧ kb'.len = kb.len ∧
        walkNode kb'.root c.id 0 = some (update cs j c, ds) ∧
        (update cs j c).getLast? = some c := by
  intro kb c cs ds j hwalk hidx
  obtain ⟨n', hpass, hwalk', hlen⟩ := addPass_found kb.node_id kb.nodes_per_kbucket c
    kb.root 0 cs ds j hwalk hidx
  refine ⟨⟨kb.node_id, kb.nodes_per_kbucket, kb.nodes_to_ping, n'⟩, ?_, ?_, hwalk', ?_⟩
  · exact addLoop_one (8 * c.id.length + 8 * kb.node_id.length + 1) kb c n' [] hpass
  · rw [len_eq_allContacts_length, len_eq_allContacts_length]
    exact hlen
  · obtain ⟨inc, hinc, -⟩ := index_of_some cs c.id j hidx
    rw [update_eq cs j c inc hinc]
    simp

/-- Witness for C5: refreshing identity `[1]` in a two-contact leaf. -/
theorem C5_existing_identity_refresh_to_tail_witness :
    ∃ kb', (⟨[0], 20, 3, Node.Leaf [⟨[1], 0⟩, ⟨[2], 0⟩] false⟩ : Kbucket).add ⟨[1], 5⟩ =
        Res.ok (kb', []) ∧
      kb'.len = (⟨[0], 20, 3, Node.Leaf [⟨[1], 0⟩, ⟨[2], 0⟩] false⟩ : Kbucket).len ∧
      walkNode kb'.root [1] 0 = some (update [⟨[1], 0⟩, ⟨[2], 0⟩] 0 ⟨[1], 5⟩, false) ∧
      (update [⟨[1], 0⟩, ⟨[2], 0⟩] 0 ⟨[1], 5⟩).getLast? = some ⟨[1], 5⟩ :=
  C5_existing_identity_refresh_to_tail ⟨[0], 20, 3, Node.Leaf [⟨[1], 0⟩, ⟨[2], 0⟩] false⟩
    ⟨[1], 5⟩ [⟨[1], 0⟩, ⟨[2], 0⟩] false 0 (by decide) (by decide)

/-! ### The walk performed by add into a full frozen leaf (C4) -/

theorem addPass_frozen (nid : List Nat) (k : Nat) (c : Contact) :
    ∀ (n : Node) (b : Nat) (cs : List Contact),
      walkNode n c.id b = some (cs, true) → index_of cs c.id = none →
      k ≤ cs.length → addPass nid k c n b = some (n, false, []) := by
  intro n
  induction n with
  | Leaf contacts dont_split =>
    intro b cs hwalk hidx hfull
    rw [walkNode] at hwalk
    obtain ⟨rfl, hds⟩ : contacts = cs ∧ dont_split = true := by
      simpa using hwalk
    subst hds
    rw [addPass, hidx]
    simp [Nat.not_lt.mpr hfull]
  | Inner left right ihl ihr =>
    intro b cs hwalk hidx hfull
    rw [walkNode] at hwalk
    rw [addPass]
    match hdn : determine_node c.id b with
    | none => rw [hdn] at hwalk; exact absurd hwalk (by simp)
    | some Direction.Left =>
      rw [hdn] at hwalk
      simp [ihl (b + 1) cs hwalk hidx hfull]
    | some Direction.Right =>
      rw [hdn] at hwalk
      simp [ihr (b + 1) cs hwalk hidx hfull]

/-- C4 (amended): when add reaches a leaf that already holds `k` contacts, is
marked `dont_split` and does not contain the candidate's identity, the contact
is not inserted and the entire Kbucket state is unchanged; no notification is
emitted (the ping signal carrying the oldest `nodes_to_ping` contacts exists
only as a commented-out placeholder in the source). -/
theorem C4_frozen_full_leaf_noop :
    ∀ (kb : Kbucket) (c : Contact) (cs : List Contact),
      walkNode kb.root c.id 0 = some (cs, true) → index_of cs c.id = none →
      kb.nodes_per_kbucket ≤ cs.length →
      kb.add c = Res.ok (kb, []) := by
  intro kb c cs hwalk hidx hfull
  have hpass := addPass_frozen kb.node_id kb.nodes_per_kbucket c kb.root 0 cs hwalk hidx hfull
  exact addLoop_one (8 * c.id.length + 8 * kb.node_id.length + 1) kb c kb.root [] hpass

/-- Witness for C4 (amended) at the reachable state `frozenFullKb`. -/
theorem C4_frozen_full_leaf_noop_witness :
    frozenFullKb.add ⟨[0xC0], 0⟩ = Res.ok (frozenFullKb, []) :=
  C4_frozen_full_leaf_noop frozenFullKb ⟨[0xC0], 0⟩ [⟨[0x80], 0⟩]
    (by decide) (by decide) (by decide)

/-! ### The sort used by closest -/

theorem orderedInsertByDist_perm (id : List Nat) (c : Contact) :
    ∀ (l : List Contact), (orderedInsertByDist id c l).Perm (c :: l) := by
  intro l
  induction l with
  | nil => exact List.Perm.refl _
  | cons x xs ih =>
    rw [orderedInsertByDist]
    by_cases h : xor_distance c.id id ≤ xor_distance x.id id
    · rw [if_pos h]
    · rw [if_neg h]
      exact (ih.cons x).trans (List.Perm.swap c x xs)

theorem orderedInsertByDist_pairwise (id : List Nat) (c : Contact) :
    ∀ (l : List Contact),
      List.Pairwise (fun a b => xor_distance a.id id ≤ xor_distance b.id id) l →
      List.Pairwise (fun a b => xor_distance a.id id ≤ xor_distance b.id id)
        (orderedInsertByDist id c l) := by
  intro l
  induction l with
  | nil => intro _; simp [orderedInsertByDist]
  | cons x xs ih =>
    intro hp
    rcases List.pairwise_cons.mp hp with ⟨hx, hxs⟩
    rw [orderedInsertByDist]
    by_cases h : xor_distance c.id id ≤ xor_distance x.id id
    · rw [if_pos h]
      refine List.pairwise_cons.mpr ⟨?_, hp⟩
      intro y hy
      rcases List.mem_cons.mp hy with rfl | hy'
      · exact h
      · exact Nat.le_trans h (hx y hy')
    · rw [if_neg h]
      refine List.pairwise_cons.mpr ⟨?_, ih hxs⟩
      intro y hy
      have hy' := (orderedInsertByDist_perm id c xs).mem_iff.mp hy
      rcases List.mem_cons.mp hy' with rfl | hy''
      · exact Nat.le_of_not_le h
      · exact hx y hy''

theorem sortByDist_perm (id : List Nat) :
    ∀ (l : List Contact), (sortByDist id l).Perm l := by
  intro l
  induction l with
  | nil => exact List.Perm.refl _
  | cons c cs ih =>
    rw [sortByDist]
    exact (orderedInsertByDist_perm id c (sortByDist id cs)).trans (ih.cons c)

theorem sortByDist_pairwise (id : List Nat) (l : List Contact) :
    List.Pairwise (fun a b => xor_distance a.id id ≤ xor_distance b.id id)
      (sortByDist id l) := by
  induction l with
  | nil => simp [sortByDist]
  | cons c cs ih => exact orderedInsertByDist_pairwise id c (sortByDist id cs) ih

/-! ### The gathering loop of closest collects everything when it cannot stop early -/

theorem closestGather_all (id : List Nat) (n' : Nat) :
    ∀ (fuel : Nat) (nodes : List Node) (b : Nat) (acc res : List Contact),
      acc.length + (nodesContacts nodes).length < n' →
      closestGather id (some n') fuel nodes b acc = some res →
      res.Perm (acc ++ nodesContacts nodes) := by
  intro fuel
  induction fuel with
  | zero =>
    intro nodes b acc res hlen h
    cases nodes with
    | nil =>
      rw [closestGather] at h
      obtain rfl := Option.some.inj h
      simp [nodesContacts]
    | cons node rest => exact absurd h (by rw [closestGather]; simp)
  | succ fuel ih =>
    intro nodes b acc res hlen h
    cases nodes with
    | nil =>
      rw [closestGather] at h
      obtain rfl := Option.some.inj h
      simp [nodesContacts]
    | cons node rest =>
      have hbc : breakCheck (some n') acc.length = false := by
        simp only [breakCheck, decide_eq_false_iff_not]
        omega
      cases node with
      | Inner l r =>
        rw [closestGather, hbc] at h
        simp only [Bool.false_eq_true, if_false] at h
        cases hdn : determine_node id b with
        | none => rw [hdn] at h; exact absurd h (by simp)
        | some dir =>
          rw [hdn] at h
          cases dir with
          | Left =>
            have hlen' : acc.length + (nodesContacts (l :: r :: rest)).length < n' := by
              simp [nodesContacts, Node.allContacts] at hlen ⊢
              omega
            have hperm := ih (l :: r :: rest) (b + 1) acc res hlen' h
            refine hperm.trans (List.Perm.append_left acc ?_)
            simp [nodesContacts, Node.allContacts]
          | Right =>
            have hlen' : acc.length + (nodesContacts (r :: l :: rest)).length < n' := by
              simp [nodesContacts, Node.allContacts] at hlen ⊢
              omega
            have hperm := ih (r :: l :: rest) (b + 1) acc res hlen' h
            refine hperm.trans (List.Perm.append_left acc ?_)
            have hswap : (nodesContacts (r :: l :: rest)).Perm
                (nodesContacts (l :: r :: rest)) := by
              simp only [nodesContacts]
              rw [← List.append_assoc, ← List.append_assoc]
              exact List.Perm.append_right (nodesContacts rest) List.perm_append_comm
            refine hswap.trans ?_
            simp [nodesContacts, Node.allContacts]
      | Leaf cs ds =>
        rw [closestGather, hbc] at h
        simp only [Bool.false_eq_true, if_false] at h
        have hlen' : (acc ++ cs).length + (nodesContacts rest).length < n' := by
          simp [nodesContacts, Node.allContacts] at hlen ⊢
          omega
        have hperm := ih rest b (acc ++ cs) res hlen' h
        refine hperm.trans ?_
        simp [nodesContacts, Node.allContacts]

/-- C1: `closest(target, n)` returns at most `n` contacts, in ascending order
of XOR distance to the target; and when the table holds fewer than `n`
contacts in total, the result is exactly the full contact set (as a
permutation; its ascending order is the second conjunct). -/
theorem C1_closest_bound_sorted_complete :
    ∀ (kb : Kbucket) (id : List Nat) (n' : Nat) (res : List Contact),
      kb.closest id (some n') = some res →
      res.length ≤ n' ∧
      List.Pairwise (fun a b => xor_distance a.id id ≤ xor_distance b.id id) res ∧
      (kb.root.allContacts.length < n' → res.Perm kb.root.allContacts) := by
  intro kb id n' res h
  rw [Kbucket.closest] at h
  obtain ⟨g, hg, hres⟩ := Option.map_eq_some'.mp h
  simp only at hres
  subst hres
  refine ⟨?_, ?_, ?_⟩
  · simp
  · exact (sortByDist_pairwise id g).sublist (List.take_sublist _ _)
  · intro htotal
    have hlen0 : ([] : List Contact).length + (nodesContacts [kb.root]).length < n' := by
      simp [nodesContacts]
      omega
    have hperm := closestGather_all id n' _ [kb.root] 0 [] g hlen0 hg
    simp only [List.nil_append] at hperm
    have hgroot : g.Perm kb.root.allContacts := by
      refine hperm.trans ?_
      simp [nodesContacts]
    have hsortg : (sortByDist id g).Perm kb.root.allContacts :=
      (sortByDist_perm id g).trans hgroot
    have hlensort : (sortByDist id g).length ≤ n' := by
      rw [hsortg.length_eq]
      omega
    rw [List.take_of_length_le hlensort]
    exact hsortg

/-- Witness for C1 at the reachable two-contact state `frozenFullKb`,
querying the five closest to `[0x00]`. -/
theorem C1_closest_bound_sorted_complete_witness :
    ([⟨[0x40], 0⟩, ⟨[0x80], 0⟩] : List Contact).length ≤ 5 ∧
    List.Pairwise (fun a b => xor_distance a.id [0x00] ≤ xor_distance b.id [0x00])
      ([⟨[0x40], 0⟩, ⟨[0x80], 0⟩] : List Contact) ∧
    (frozenFullKb.root.allContacts.length < 5 →
      ([⟨[0x40], 0⟩, ⟨[0x80], 0⟩] : List Contact).Perm frozenFullKb.root.allContacts) :=
  C1_closest_bound_sorted_complete frozenFullKb [0x00] 5 [⟨[0x40], 0⟩, ⟨[0x80], 0⟩]
    (by decide)

/-! ### Anatomy of split and of one add pass -/

theorem distribute_spec :
    ∀ (cs : List Contact) (b : Nat) (l r : List Contact),
      distribute cs b = some (l, r) →
      l.Sublist cs ∧ r.Sublist cs ∧
      (∀ x ∈ l, determine_node x.id b = some Direction.Left) ∧
      (∀ x ∈ r, determine_node x.id b = some Direction.Right) := by
  intro cs
  induction cs with
  | nil =>
    intro b l r h
    rw [distribute] at h
    injection h with h2
    injection h2 with h3 h4
    subst h3; subst h4
    simp
  | cons c rest ih =>
    intro b l r h
    rw [distribute] at h
    cases hdn : determine_node c.id b with
    | none =>
      rw [hdn] at h
      cases hdist : distribute rest b <;> rw [hdist] at h <;> simp at h
    | some dir =>
      rw [hdn] at h
      cases hdist : distribute rest b with
      | none => rw [hdist] at h; cases dir <;> simp at h
      | some p =>
        obtain ⟨l0, r0⟩ := p
        rw [hdist] at h
        obtain ⟨hs1, hs2, hm1, hm2⟩ := ih b l0 r0 hdist
        cases dir with
        | Left =>
          obtain ⟨rfl, rfl⟩ : c :: l0 = l ∧ r0 = r := by simpa using h
          refine ⟨hs1.cons₂ c, hs2.cons c, ?_, hm2⟩
          intro x hx
          rcases List.mem_cons.mp hx with rfl | hx'
          · exact hdn
          · exact hm1 x hx'
        | Right =>
          obtain ⟨rfl, rfl⟩ : l0 = l ∧ c :: r0 = r := by simpa using h
          refine ⟨hs1.cons c, hs2.cons₂ c, hm1, ?_⟩
          intro x hx
          rcases List.mem_cons.mp hx with rfl | hx'
          · exact hdn
          · exact hm2 x hx'

theorem split_spec (nid : List Nat) (cs : List Contact) (b : Nat) (n' : Node)
    (h : split nid cs b = some n') :
    ∃ l r sd, distribute cs b = some (l, r) ∧ determine_node nid b = some sd ∧
      n' = Node.Inner (Node.Leaf l (decide (sd = Direction.Right)))
        (Node.Leaf r (decide (sd = Direction.Left))) := by
  rw [split] at h
  cases hdist : distribute cs b with
  | none =>
    rw [hdist] at h
    cases hdn : determine_node nid b <;> rw [hdn] at h <;> simp at h
  | some p =>
    obtain ⟨l, r⟩ := p
    rw [hdist] at h
    cases hdn : determine_node nid b with
    | none => rw [hdn] at h; simp at h
    | some sd =>
      rw [hdn] at h
      exact ⟨l, r, sd, rfl, rfl, (Option.some.inj h).symm⟩

/-- Contacts after one pass of add come from the old tree or are the new contact. -/
theorem addPass_mem (nid : List Nat) (k : Nat) (c : Contact) :
    ∀ (n : Node) (b : Nat) (n' : Node) (retry : Bool) (evs : List Event),
      addPass nid k c n b = some (n', retry, evs) →
      ∀ x ∈ n'.allContacts, x ∈ n.allContacts ∨ x = c := by
  intro n
  induction n with
  | Leaf cs ds =>
    intro b n' retry evs h x hx
    rw [addPass] at h
    cases hidx : index_of cs c.id with
    | some j =>
      rw [hidx] at h
      obtain ⟨rfl, rfl, rfl⟩ : Node.Leaf (update cs j c) ds = n' ∧ false = retry ∧
          ([] : List Event) = evs := by simpa using h
      obtain ⟨inc, hinc, -⟩ := index_of_some cs c.id j hidx
      rw [Node.allContacts, update_eq cs j c inc hinc] at hx
      rcases List.mem_append.mp hx with hx' | hx'
      · exact Or.inl (List.Sublist.mem hx' (List.eraseIdx_sublist cs j))
      · exact Or.inr (by simpa using hx')
    | none =>
      rw [hidx] at h
      by_cases hlt : cs.length < k
      · rw [if_pos hlt] at h
        obtain ⟨rfl, rfl, rfl⟩ : Node.Leaf (cs ++ [c]) ds = n' ∧ false = retry ∧
            ([] : List Event) = evs := by simpa using h
        rw [Node.allContacts] at hx
        rcases List.mem_append.mp hx with hx' | hx'
        · exact Or.inl hx'
        · exact Or.inr (by simpa using hx')
      · rw [if_neg hlt] at h
        cases ds with
        | true =>
          obtain ⟨rfl, rfl, rfl⟩ : Node.Leaf cs true = n' ∧ false = retry ∧
              ([] : List Event) = evs := by simpa using h
          exact Or.inl hx
        | false =>
          simp only [if_false, Bool.false_eq_true] at h
          obtain ⟨ns, hsplit, heq⟩ := Option.map_eq_some'.mp h
          obtain ⟨rfl, rfl, rfl⟩ : ns = n' ∧ true = retry ∧ ([] : List Event) = evs := by
            constructor
            · exact congrArg Prod.fst heq
            · exact ⟨congrArg (fun q => q.2.1) heq, congrArg (fun q => q.2.2) heq⟩
          obtain ⟨l, r, sd, hdist, hdn, rfl⟩ := split_spec nid cs b ns hsplit
          obtain ⟨hs1, hs2, -, -⟩ := distribute_spec cs b l r hdist
          rw [Node.allContacts] at hx
          rcases List.mem_append.mp hx with hx' | hx'
          · exact Or.inl (List.Sublist.mem (by simpa using hx' : x ∈ l) hs1)
          · exact Or.inl (List.Sublist.mem (by simpa using hx' : x ∈ r) hs2)
  | Inner left right ihl ihr =>
    intro b n' retry evs h x hx
    rw [addPass] at h
    cases hdn : determine_node c.id b with
    | none => rw [hdn] at h; simp at h
    | some dir =>
      rw [hdn] at h
      cases dir with
      | Left =>
        obtain ⟨⟨l', retry', evs'⟩, hpass, heq⟩ := Option.map_eq_some'.mp h
        obtain rfl : Node.Inner l' right = n' := congrArg Prod.fst heq
        rw [Node.allContacts] at hx
        rcases List.mem_append.mp hx with hx' | hx'
        · rcases ihl (b + 1) l' retry' evs' hpass x hx' with hin | hc
          · exact Or.inl (List.mem_append.mpr (Or.inl hin))
          · exact Or.inr hc
        · exact Or.inl (List.mem_append.mpr (Or.inr hx'))
      | Right =>
        obtain ⟨⟨r', retry', evs'⟩, hpass, heq⟩ := Option.map_eq_some'.mp h
        obtain rfl : Node.Inner left r' = n' := congrArg Prod.fst heq
        rw [Node.allContacts] at hx
        rcases List.mem_append.mp hx with hx' | hx'
        · exact Or.inl (List.mem_append.mpr (Or.inl hx'))
        · rcases ihr (b + 1) r' retry' evs' hpass x hx' with hin | hc
          · exact Or.inl (List.mem_append.mpr (Or.inr hin))
          · exact Or.inr hc

/-! ### Preservation of the freeze-flag invariant (C3) -/

theorem flagInv_addPass (nid : List Nat) (k : Nat) (c : Contact) :
    ∀ (n : Node) (b : Nat) (p : Bool) (n' : Node) (retry : Bool) (evs : List Event),
      flagInv nid n b p = true → addPass nid k c n b = some (n', retry, evs) →
      flagInv nid n' b p = true := by
  intro n
  induction n with
  | Leaf cs ds =>
    intro b p n' retry evs hf h
    rw [addPass] at h
    cases hidx : index_of cs c.id with
    | some j =>
      rw [hidx] at h
      obtain ⟨rfl, -, -⟩ : Node.Leaf (update cs j c) ds = n' ∧ false = retry ∧
          ([] : List Event) = evs := by simpa using h
      exact hf
    | none =>
      rw [hidx] at h
      by_cases hlt : cs.length < k
      · rw [if_pos hlt] at h
        obtain ⟨rfl, -, -⟩ : Node.Leaf (cs ++ [c]) ds = n' ∧ false = retry ∧
            ([] : List Event) = evs := by simpa using h
        exact hf
      · rw [if_neg hlt] at h
        cases ds with
        | true =>
          obtain ⟨rfl, -, -⟩ : Node.Leaf cs true = n' ∧ false = retry ∧
              ([] : List Event) = evs := by simpa using h
          exact hf
        | false =>
          simp only [if_false, Bool.false_eq_true] at h
          obtain ⟨ns, hsplit, heq⟩ := Option.map_eq_some'.mp h
          obtain rfl : ns = n' := congrArg Prod.fst heq
          obtain ⟨l, r, sd, hdist, hdns, rfl⟩ := split_spec nid cs b ns hsplit
          have hp : p = true := by
            rw [flagInv] at hf
            cases p <;> simp_all
          subst hp
          rw [flagInv, hdns]
          cases sd <;> simp [flagInv]
  | Inner left right ihl ihr =>
    intro b p n' retry evs hf h
    rw [addPass] at h
    rw [flagInv] at hf
    cases hdnn : determine_node nid b with
    | none => rw [hdnn] at hf; simp at hf
    | some d =>
      rw [hdnn] at hf
      rw [Bool.and_eq_true] at hf
      obtain ⟨hfl, hfr⟩ := hf
      cases hdn : determine_node c.id b with
      | none => rw [hdn] at h; simp at h
      | some dir =>
        rw [hdn] at h
        cases dir with
        | Left =>
          obtain ⟨⟨l', retry', evs'⟩, hpass, heq⟩ := Option.map_eq_some'.mp h
          obtain rfl : Node.Inner l' right = n' := congrArg Prod.fst heq
          rw [flagInv, hdnn, Bool.and_eq_true]
          exact ⟨ihl (b + 1) _ l' retry' evs' hfl hpass, hfr⟩
        | Right =>
          obtain ⟨⟨r', retry', evs'⟩, hpass, heq⟩ := Option.map_eq_some'.mp h
          obtain rfl : Node.Inner left r' = n' := congrArg Prod.fst heq
          rw [flagInv, hdnn, Bool.and_eq_true]
          exact ⟨hfl, ihr (b + 1) _ r' retry' evs' hfr hpass⟩

theorem flagInv_removeNode (nid id : List Nat) :
    ∀ (n : Node) (b : Nat) (p : Bool) (n' : Node),
      flagInv nid n b p = true → removeNode n id b = some n' →
      flagInv nid n' b p = true := by
  intro n
  induction n with
  | Leaf cs ds =>
    intro b p n' hf h
    rw [removeNode] at h
    obtain rfl := Option.some.inj h
    exact hf
  | Inner left right ihl ihr =>
    intro b p n' hf h
    rw [removeNode] at h
    rw [flagInv] at hf
    cases hdnn : determine_node nid b with
    | none => rw [hdnn] at hf; simp at hf
    | some d =>
      rw [hdnn] at hf
      rw [Bool.and_eq_true] at hf
      obtain ⟨hfl, hfr⟩ := hf
      cases hdn : determine_node id b with
      | none => rw [hdn] at h; simp at h
      | some dir =>
        rw [hdn] at h
        cases dir with
        | Left =>
          obtain ⟨l', hrm, heq⟩ := Option.map_eq_some'.mp h
          obtain rfl := heq.symm
          rw [flagInv, hdnn, Bool.and_eq_true]
          exact ⟨ihl (b + 1) _ l' hfl hrm, hfr⟩
        | Right =>
          obtain ⟨r', hrm, heq⟩ := Option.map_eq_some'.mp h
          obtain rfl := heq.symm
          rw [flagInv, hdnn, Bool.and_eq_true]
          exact ⟨hfl, ihr (b + 1) _ r' hfr hrm⟩

/-- The add loop keeps the configuration fields and preserves the flag invariant. -/
theorem addLoop_preserves :
    ∀ (fuel : Nat) (kb : Kbucket) (c : Contact) (kb' : Kbucket) (evs : List Event),
      addLoop fuel kb c = Res.ok (kb', evs) →
      kb'.node_id = kb.node_id ∧ kb'.nodes_per_kbucket = kb.nodes_per_kbucket ∧
      kb'.nodes_to_ping = kb.nodes_to_ping ∧
      (∀ p, flagInv kb.node_id kb.root 0 p = true → flagInv kb.node_id kb'.root 0 p = true) := by
  intro fuel
  induction fuel with
  | zero =>
    intro kb c kb' evs h
    rw [addLoop] at h
    exact Res.noConfusion h
  | succ fuel ih =>
    intro kb c kb' evs h
    rw [addLoop] at h
    cases hpass : addPass kb.node_id kb.nodes_per_kbucket c kb.root 0 with
    | none =>
      rw [hpass] at h
      exact Res.noConfusion h
    | some t =>
      obtain ⟨root', retry, evs'⟩ := t
      rw [hpass] at h
      cases retry with
      | true =>
        replace h : addLoop fuel
            ⟨kb.node_id, kb.nodes_per_kbucket, kb.nodes_to_ping, root'⟩ c =
            Res.ok (kb', evs) := h
        obtain ⟨h1, h2, h3, h4⟩ :=
          ih ⟨kb.node_id, kb.nodes_per_kbucket, kb.nodes_to_ping, root'⟩ c kb' evs h
        refine ⟨h1, h2, h3, ?_⟩
        intro p hf
        exact h4 p (flagInv_addPass kb.node_id kb.nodes_per_kbucket c kb.root 0 p
          root' true evs' hf hpass)
      | false =>
        replace h : (Res.ok
            ((⟨kb.node_id, kb.nodes_per_kbucket, kb.nodes_to_ping, root'⟩ : Kbucket), evs') :
            Res (Kbucket × List Event)) = Res.ok (kb', evs) := h
        obtain ⟨heq, -⟩ : (⟨kb.node_id, kb.nodes_per_kbucket, kb.nodes_to_ping, root'⟩ :
            Kbucket) = kb' ∧ evs' = evs := by
          have hp := Res.ok.inj h
          exact ⟨congrArg Prod.fst hp, congrArg Prod.snd hp⟩
        subst heq
        refine ⟨rfl, rfl, rfl, ?_⟩
        intro p hf
        exact flagInv_addPass kb.node_id kb.nodes_per_kbucket c kb.root 0 p
          root' false evs' hf hpass

/-- One public mutating call keeps the configuration fields and preserves the
flag invariant. -/
theorem applyOp_flag (kb kb₂ : Kbucket) (op : Op)
    (h : applyOp kb op = Res.ok kb₂) :
    kb₂.node_id = kb.node_id ∧
    kb₂.nodes_per_kbucket = kb.nodes_per_kbucket ∧
    kb₂.nodes_to_ping = kb.nodes_to_ping ∧
    (flagInv kb.node_id kb.root 0 true = true → flagInv kb₂.node_id kb₂.root 0 true = true) := by
  cases op with
  | addC c =>
    rw [applyOp] at h
    cases hadd : kb.add c with
    | ok t =>
      obtain ⟨kb₃, evs⟩ := t
      rw [hadd] at h
      obtain rfl : kb₃ = kb₂ := Res.ok.inj h
      obtain ⟨h1, h2, h3, h4⟩ := addLoop_preserves _ kb c kb₃ evs hadd
      exact ⟨h1, h2, h3, fun hf => by rw [h1]; exact h4 true hf⟩
    | oob => rw [hadd] at h; exact Res.noConfusion h
    | noFuel => rw [hadd] at h; exact Res.noConfusion h
  | removeC id =>
    rw [applyOp] at h
    cases hrm : removeNode kb.root id 0 with
    | none =>
      rw [Kbucket.remove, hrm] at h
      exact Res.noConfusion h
    | some root' =>
      rw [Kbucket.remove, hrm] at h
      obtain rfl : (⟨kb.node_id, kb.nodes_per_kbucket, kb.nodes_to_ping, root'⟩ :
          Kbucket) = kb₂ := Res.ok.inj h
      exact ⟨rfl, rfl, rfl, fun hf =>
        flagInv_removeNode kb.node_id id kb.root 0 true root' hf hrm⟩

theorem applyOps_flag :
    ∀ (ops : List Op) (kb kb' : Kbucket),
      applyOps kb ops = Res.ok kb' →
      flagInv kb.node_id kb.root 0 true = true →
      kb'.node_id = kb.node_id ∧ flagInv kb'.node_id kb'.root 0 true = true := by
  intro ops
  induction ops with
  | nil =>
    intro kb kb' h hf
    rw [applyOps] at h
    obtain rfl : kb = kb' := Res.ok.inj h
    exact ⟨rfl, hf⟩
  | cons op rest ih =>
    intro kb kb' h hf
    rw [applyOps] at h
    cases hop : applyOp kb op with
    | ok kb₂ =>
      rw [hop] at h
      obtain ⟨hid2, -, -, hf2⟩ := applyOp_flag kb kb₂ op hop
      obtain ⟨hid3, hf3⟩ := ih kb₂ kb' h (hf2 hf)
      exact ⟨hid3.trans hid2, hf3⟩
    | oob => rw [hop] at h; exact Res.noConfusion h
    | noFuel => rw [hop] at h; exact Res.noConfusion h

/-- C3: in every Kbucket reachable from construction by add and remove calls,
a leaf whose bit path diverges from the local node id's own path has
`dont_split = true` and a leaf on the local path has `dont_split = false`
(the `flagInv` predicate, rooted with `on_path = true`); moreover the flag of
each leaf created by `split` is set iff that leaf lies on the branch the local
node id does not fall on, so frozen leaves are never split. -/
theorem C3_freeze_flag_invariant :
    (∀ (node_id : List Nat) (kOpt pOpt : Option Nat) (ops : List Op) (kb : Kbucket),
      applyOps (Kbucket.new node_id kOpt pOpt) ops = Res.ok kb →
      flagInv node_id kb.root 0 true = true) ∧
    (∀ (node_id : List Nat) (cs : List Contact) (b : Nat) (lcs rcs : List Contact)
      (lds rds : Bool),
      split node_id cs b = some (Node.Inner (Node.Leaf lcs lds) (Node.Leaf rcs rds)) →
      ((lds = true) ↔ determine_node node_id b = some Direction.Right) ∧
      ((rds = true) ↔ determine_node node_id b = some Direction.Left)) := by
  constructor
  · intro node_id kOpt pOpt ops kb h
    have hf0 : flagInv node_id (Kbucket.new node_id kOpt pOpt).root 0 true = true := rfl
    obtain ⟨hid, hf⟩ := applyOps_flag ops (Kbucket.new node_id kOpt pOpt) kb h hf0
    have hnid : (Kbucket.new node_id kOpt pOpt).node_id = node_id := rfl
    rw [hid.trans hnid] at hf
    exact hf
  · intro node_id cs b lcs rcs lds rds h
    obtain ⟨l, r, sd, -, hdn, heq⟩ := split_spec node_id cs b _ h
    obtain ⟨-, hlds, -, hrds⟩ : lcs = l ∧ lds = decide (sd = Direction.Right) ∧
        rcs = r ∧ rds = decide (sd = Direction.Left) := by
      injection heq with h1 h2
      injection h1 with h3 h4
      injection h2 with h5 h6
      exact ⟨h3, h4, h5, h6⟩
    subst hlds; subst hrds
    rw [hdn]
    cases sd <;> simp

/-- Witness for C3 applying the invariant after one add, and the split flag
rule at a concrete split. -/
theorem C3_freeze_flag_invariant_witness :
    flagInv [0] (Node.Leaf [⟨[1], 0⟩] false) 0 true = true ∧
    (((false = true) ↔ determine_node [0] 0 = some Direction.Right) ∧
      ((true = true) ↔ determine_node [0] 0 = some Direction.Left)) :=
  ⟨by
    have h := C3_freeze_flag_invariant.1 [0] none none [Op.addC ⟨[1], 0⟩]
      ⟨[0], 20, 3, Node.Leaf [⟨[1], 0⟩] false⟩ (by decide)
    simpa using h,
   C3_freeze_flag_invariant.2 [0] [⟨[0x80], 0⟩] 0 [] [⟨[0x80], 0⟩] false true (by decide)⟩

/-! ### Preservation of the routing invariant (C10) -/

theorem distinctIds_iff (cs : List Contact) :
    distinctIds cs = true ↔ List.Pairwise (fun a b => a.id ≠ b.id) cs := by
  induction cs with
  | nil => simp [distinctIds]
  | cons c rest ih =>
    rw [distinctIds, Bool.and_eq_true, List.all_eq_true, List.pairwise_cons]
    constructor
    · rintro ⟨h1, h2⟩
      refine ⟨fun a ha => ?_, ih.mp h2⟩
      have := h1 a ha
      rw [decide_eq_true_iff] at this
      exact this.symm
    · rintro ⟨h1, h2⟩
      refine ⟨fun a ha => ?_, ih.mpr h2⟩
      rw [decide_eq_true_iff]
      exact (h1 a ha).symm

theorem eraseIdx_ne_of_found (t : List Nat) :
    ∀ (cs : List Contact) (j : Nat) (inc : Contact),
      List.Pairwise (fun a b => a.id ≠ b.id) cs →
      cs.get? j = some inc → inc.id = t →
      ∀ x ∈ cs.eraseIdx j, x.id ≠ t := by
  intro cs
  induction cs with
  | nil => intro j inc _ h; simp at h
  | cons a rest ih =>
    intro j inc hpw hget hid x hx
    cases j with
    | zero =>
      obtain rfl : a = inc := by simpa using hget
      rw [List.eraseIdx_cons_zero] at hx
      have hne := (List.pairwise_cons.mp hpw).1 x hx
      exact fun hEq => hne (hid.trans hEq.symm)
    | succ j' =>
      rw [List.eraseIdx_cons_succ] at hx
      rcases List.mem_cons.mp hx with rfl | hx'
      · have hmem : inc ∈ rest := List.get?_mem (by simpa using hget)
        have hne := (List.pairwise_cons.mp hpw).1 inc hmem
        exact fun hEq => hne (hEq.trans hid.symm)
      · exact ih j' inc (List.pairwise_cons.mp hpw).2 (by simpa using hget) hid x hx'

theorem distinct_update (cs : List Contact) (j : Nat) (c : Contact)
    (hpw : distinctIds cs = true) (hidx : index_of cs c.id = some j) :
    distinctIds (update cs j c) = true := by
  obtain ⟨inc, hget, hid⟩ := index_of_some cs c.id j hidx
  rw [update_eq cs j c inc hget, distinctIds_iff]
  rw [distinctIds_iff] at hpw
  refine List.pairwise_append.mpr
    ⟨hpw.sublist (List.eraseIdx_sublist cs j), by simp, ?_⟩
  intro a ha b hb
  have hbc : b = c := by simpa using hb
  rw [hbc]
  exact eraseIdx_ne_of_found c.id cs j inc hpw hget hid a ha

theorem distinct_append_new (cs : List Contact) (c : Contact)
    (hpw : distinctIds cs = true) (hidx : index_of cs c.id = none) :
    distinctIds (cs ++ [c]) = true := by
  rw [distinctIds_iff] at hpw ⊢
  refine List.pairwise_append.mpr ⟨hpw, by simp, ?_⟩
  intro a ha b hb
  have hbc : b = c := by simpa using hb
  rw [hbc]
  exact (index_of_none_iff cs c.id).mp hidx a ha

theorem routeInv_addPass (nid : List Nat) (k : Nat) (c : Contact) :
    ∀ (n : Node) (b : Nat) (n' : Node) (retry : Bool) (evs : List Event),
      routeInv n b = true → addPass nid k c n b = some (n', retry, evs) →
      routeInv n' b = true := by
  intro n
  induction n with
  | Leaf cs ds =>
    intro b n' retry evs hr h
    rw [addPass] at h
    rw [routeInv] at hr
    cases hidx : index_of cs c.id with
    | some j =>
      rw [hidx] at h
      obtain ⟨rfl, -, -⟩ : Node.Leaf (update cs j c) ds = n' ∧ false = retry ∧
          ([] : List Event) = evs := by simpa using h
      rw [routeInv]
      exact distinct_update cs j c hr hidx
    | none =>
      rw [hidx] at h
      by_cases hlt : cs.length < k
      · rw [if_pos hlt] at h
        obtain ⟨rfl, -, -⟩ : Node.Leaf (cs ++ [c]) ds = n' ∧ false = retry ∧
            ([] : List Event) = evs := by simpa using h
        rw [routeInv]
        exact distinct_append_new cs c hr hidx
      · rw [if_neg hlt] at h
        cases ds with
        | true =>
          obtain ⟨rfl, -, -⟩ : Node.Leaf cs true = n' ∧ false = retry ∧
              ([] : List Event) = evs := by simpa using h
          rw [routeInv]
          exact hr
        | false =>
          simp only [if_false, Bool.false_eq_true] at h
          obtain ⟨ns, hsplit, heq⟩ := Option.map_eq_some'.mp h
          obtain rfl : ns = n' := congrArg Prod.fst heq
          obtain ⟨l, r, sd, hdist, hdns, rfl⟩ := split_spec nid cs b ns hsplit
          obtain ⟨hs1, hs2, hm1, hm2⟩ := distribute_spec cs b l r hdist
          rw [distinctIds_iff] at hr
          rw [routeInv]
          simp only [Node.allContacts, Bool.and_eq_true]
          refine ⟨⟨⟨?_, ?_⟩, ?_⟩, ?_⟩
          · rw [List.all_eq_true]
            intro x hx
            rw [decide_eq_true_iff]
            exact hm1 x hx
          · rw [List.all_eq_true]
            intro x hx
            rw [decide_eq_true_iff]
            exact hm2 x hx
          · rw [routeInv]
            exact (distinctIds_iff l).mpr (hr.sublist hs1)
          · rw [routeInv]
            exact (distinctIds_iff r).mpr (hr.sublist hs2)
  | Inner left right ihl ihr =>
    intro b n' retry evs hr h
    rw [addPass] at h
    rw [routeInv] at hr
    simp only [Bool.and_eq_true] at hr
    obtain ⟨⟨⟨hall_l, hall_r⟩, hrl⟩, hrr⟩ := hr
    cases hdn : determine_node c.id b with
    | none => rw [hdn] at h; simp at h
    | some dir =>
      rw [hdn] at h
      cases dir with
      | Left =>
        obtain ⟨⟨l', retry', evs'⟩, hpass, heq⟩ := Option.map_eq_some'.mp h
        obtain rfl : Node.Inner l' right = n' := congrArg Prod.fst heq
        rw [routeInv]
        simp only [Bool.and_eq_true]
        refine ⟨⟨⟨?_, hall_r⟩, ihl (b + 1) l' retry' evs' hrl hpass⟩, hrr⟩
        rw [List.all_eq_true]
        intro x hx
        rcases addPass_mem nid k c left (b + 1) l' retry' evs' hpass x hx with hin | rfl
        · exact List.all_eq_true.mp hall_l x hin
        · rw [decide_eq_true_iff]
          exact hdn
      | Right =>
        obtain ⟨⟨r', retry', evs'⟩, hpass, heq⟩ := Option.map_eq_some'.mp h
        obtain rfl : Node.Inner left r' = n' := congrArg Prod.fst heq
        rw [routeInv]
        simp only [Bool.and_eq_true]
        refine ⟨⟨⟨hall_l, ?_⟩, hrl⟩, ihr (b + 1) r' retry' evs' hrr hpass⟩
        rw [List.all_eq_true]
        intro x hx
        rcases addPass_mem nid k c right (b + 1) r' retry' evs' hpass x hx with hin | rfl
        · exact List.all_eq_true.mp hall_r x hin
        · rw [decide_eq_true_iff]
          exact hdn

/-- Contacts after a remove come from the old tree. -/
theorem removeNode_mem (id : List Nat) :
    ∀ (n : Node) (b : Nat) (n' : Node), removeNode n id b = some n' →
      ∀ x ∈ n'.allContacts, x ∈ n.allContacts := by
  intro n
  induction n with
  | Leaf cs ds =>
    intro b n' h x hx
    rw [removeNode] at h
    obtain rfl := (Option.some.inj h).symm
    rw [Node.allContacts] at hx
    cases hidx : index_of cs id with
    | some j =>
      rw [hidx] at hx
      exact List.Sublist.mem hx (List.eraseIdx_sublist cs j)
    | none =>
      rw [hidx] at hx
      exact hx
  | Inner left right ihl ihr =>
    intro b n' h x hx
    rw [removeNode] at h
    cases hdn : determine_node id b with
    | none => rw [hdn] at h; simp at h
    | some dir =>
      rw [hdn] at h
      cases dir with
      | Left =>
        obtain ⟨l', hrm, heq⟩ := Option.map_eq_some'.mp h
        obtain rfl := heq.symm
        rw [Node.allContacts] at hx ⊢
        rcases List.mem_append.mp hx with hx' | hx'
        · exact List.mem_append.mpr (Or.inl (ihl (b + 1) l' hrm x hx'))
        · exact List.mem_append.mpr (Or.inr hx')
      | Right =>
        obtain ⟨r', hrm, heq⟩ := Option.map_eq_some'.mp h
        obtain rfl := heq.symm
        rw [Node.allContacts] at hx ⊢
        rcases List.mem_append.mp hx with hx' | hx'
        · exact List.mem_append.mpr (Or.inl hx')
        · exact List.mem_append.mpr (Or.inr (ihr (b + 1) r' hrm x hx'))

theorem routeInv_removeNode (id : List Nat) :
    ∀ (n : Node) (b : Nat) (n' : Node),
      routeInv n b = true → removeNode n id b = some n' → routeInv n' b = true := by
  intro n
  induction n with
  | Leaf cs ds =>
    intro b n' hr h
    rw [removeNode] at h
    obtain rfl := (Option.some.inj h).symm
    rw [routeInv] at hr ⊢
    cases hidx : index_of cs id with
    | some j =>
      rw [distinctIds_iff] at hr ⊢
      exact hr.sublist (List.eraseIdx_sublist cs j)
    | none => exact hr
  | Inner left right ihl ihr =>
    intro b n' hr h
    rw [removeNode] at h
    rw [routeInv] at hr
    simp only [Bool.and_eq_true] at hr
    obtain ⟨⟨⟨hall_l, hall_r⟩, hrl⟩, hrr⟩ := hr
    cases hdn : determine_node id b with
    | none => rw [hdn] at h; simp at h
    | some dir =>
      rw [hdn] at h
      cases dir with
      | Left =>
        obtain ⟨l', hrm, heq⟩ := Option.map_eq_some'.mp h
        obtain rfl := heq.symm
        rw [routeInv]
        simp only [Bool.and_eq_true]
        refine ⟨⟨⟨?_, hall_r⟩, ihl (b + 1) l' hrl hrm⟩, hrr⟩
        rw [List.all_eq_true]
        intro x hx
        exact List.all_eq_true.mp hall_l x (removeNode_mem id left (b + 1) l' hrm x hx)
      | Right =>
        obtain ⟨r', hrm, heq⟩ := Option.map_eq_some'.mp h
        obtain rfl := heq.symm
        rw [routeInv]
        simp only [Bool.and_eq_true]
        refine ⟨⟨⟨hall_l, ?_⟩, hrl⟩, ihr (b + 1) r' hrr hrm⟩
        rw [List.all_eq_true]
        intro x hx
        exact List.all_eq_true.mp hall_r x (removeNode_mem id right (b + 1) r' hrm x hx)

/-- The add loop preserves the routing invariant. -/
theorem addLoop_route :
    ∀ (fuel : Nat) (kb : Kbucket) (c : Contact) (kb' : Kbucket) (evs : List Event),
      addLoop fuel kb c = Res.ok (kb', evs) →
      routeInv kb.root 0 = true → routeInv kb'.root 0 = true := by
  intro fuel
  induction fuel with
  | zero =>
    intro kb c kb' evs h
    rw [addLoop] at h
    exact Res.noConfusion h
  | succ fuel ih =>
    intro kb c kb' evs h hr
    rw [addLoop] at h
    cases hpass : addPass kb.node_id kb.nodes_per_kbucket c kb.root 0 with
    | none =>
      rw [hpass] at h
      exact Res.noConfusion h
    | some t =>
      obtain ⟨root', retry, evs'⟩ := t
      rw [hpass] at h
      have hr' : routeInv root' 0 = true :=
        routeInv_addPass kb.node_id kb.nodes_per_kbucket c kb.root 0 root' retry evs' hr hpass
      cases retry with
      | true =>
        replace h : addLoop fuel
            ⟨kb.node_id, kb.nodes_per_kbucket, kb.nodes_to_ping, root'⟩ c =
            Res.ok (kb', evs) := h
        exact ih ⟨kb.node_id, kb.nodes_per_kbucket, kb.nodes_to_ping, root'⟩ c kb' evs h hr'
      | false =>
        replace h : (Res.ok
            ((⟨kb.node_id, kb.nodes_per_kbucket, kb.nodes_to_ping, root'⟩ : Kbucket), evs') :
            Res (Kbucket × List Event)) = Res.ok (kb', evs) := h
        obtain heq : (⟨kb.node_id, kb.nodes_per_kbucket, kb.nodes_to_ping, root'⟩ :
            Kbucket) = kb' := congrArg Prod.fst (Res.ok.inj h)
        rw [← heq]
        exact hr'

theorem applyOps_route :
    ∀ (ops : List Op) (kb kb' : Kbucket),
      applyOps kb ops = Res.ok kb' →
      routeInv kb.root 0 = true → routeInv kb'.root 0 = true := by
  intro ops
  induction ops with
  | nil =>
    intro kb kb' h hr
    rw [applyOps] at h
    obtain rfl : kb = kb' := Res.ok.inj h
    exact hr
  | cons op rest ih =>
    intro kb kb' h hr
    rw [applyOps] at h
    cases hop : applyOp kb op with
    | ok kb₂ =>
      rw [hop] at h
      have hr₂ : routeInv kb₂.root 0 = true := by
        cases op with
        | addC c =>
          rw [applyOp] at hop
          cases hadd : kb.add c with
          | ok t =>
            obtain ⟨kb₃, evs⟩ := t
            rw [hadd] at hop
            obtain rfl : kb₃ = kb₂ := Res.ok.inj hop
            exact addLoop_route _ kb c kb₃ evs hadd hr
          | oob => rw [hadd] at hop; exact Res.noConfusion hop
          | noFuel => rw [hadd] at hop; exact Res.noConfusion hop
        | removeC id =>
          rw [applyOp] at hop
          cases hrm : removeNode kb.root id 0 with
          | none =>
            rw [Kbucket.remove, hrm] at hop
            exact Res.noConfusion hop
          | some root' =>
            rw [Kbucket.remove, hrm] at hop
            obtain rfl : (⟨kb.node_id, kb.nodes_per_kbucket, kb.nodes_to_ping, root'⟩ :
                Kbucket) = kb₂ := Res.ok.inj hop
            exact routeInv_removeNode id kb.root 0 root' hr hrm
      exact ih kb₂ kb' h hr₂
    | oob => rw [hop] at h; exact Res.noConfusion h
    | noFuel => rw [hop] at h; exact Res.noConfusion h

/-! ### Uniqueness and location of identities (C10) -/

theorem distinct_filter_le_one (x : List Nat) :
    ∀ (cs : List Contact), distinctIds cs = true →
      (cs.filter (fun y => y.id == x)).length ≤ 1 := by
  intro cs
  induction cs with
  | nil => intro h; simp
  | cons c rest ih =>
    intro h
    rw [distinctIds, Bool.and_eq_true, List.all_eq_true] at h
    obtain ⟨h1, h2⟩ := h
    rw [List.filter_cons]
    by_cases hc : c.id = x
    · rw [if_pos (by simpa using hc)]
      have hnil : rest.filter (fun y => y.id == x) = [] := by
        rw [List.filter_eq_nil_iff]
        intro a ha hax
        have h1a := h1 a ha
        rw [decide_eq_true_iff] at h1a
        exact h1a (by simpa [hc] using hax)
      rw [hnil]
      simp
    · rw [if_neg (by simpa using hc)]
      exact ih h2

theorem routeInv_filter_le_one (x : List Nat) :
    ∀ (n : Node) (b : Nat), routeInv n b = true →
      (n.allContacts.filter (fun y => y.id == x)).length ≤ 1 := by
  intro n
  induction n with
  | Leaf cs ds =>
    intro b h
    rw [routeInv] at h
    exact distinct_filter_le_one x cs h
  | Inner left right ihl ihr =>
    intro b h
    rw [routeInv] at h
    simp only [Bool.and_eq_true] at h
    obtain ⟨⟨⟨hall_l, hall_r⟩, hrl⟩, hrr⟩ := h
    rw [Node.allContacts, List.filter_append, List.length_append]
    by_cases hl : left.allContacts.filter (fun y => y.id == x) = []
    · rw [hl]
      simpa using ihr (b + 1) hrr
    · obtain ⟨y, hy⟩ := List.exists_mem_of_ne_nil _ hl
      have hy' := List.mem_filter.mp hy
      have hyx : y.id = x := by simpa using hy'.2
      have hdl : determine_node x b = some Direction.Left := by
        have hall := List.all_eq_true.mp hall_l y hy'.1
        rw [decide_eq_true_iff] at hall
        rw [← hyx]
        exact hall
      have hr0 : right.allContacts.filter (fun y => y.id == x) = [] := by
        rw [List.filter_eq_nil_iff]
        intro a ha hax
        have hax' : a.id = x := by simpa using hax
        have hall := List.all_eq_true.mp hall_r a ha
        rw [decide_eq_true_iff, hax'] at hall
        rw [hall] at hdl
        exact Direction.noConfusion (Option.some.inj hdl)
      rw [hr0]
      simpa using ihl (b + 1) hrl

theorem routeInv_mem_walk :
    ∀ (n : Node) (b : Nat) (x : Contact), routeInv n b = true → x ∈ n.allContacts →
      ∃ cs ds, walkNode n x.id b = some (cs, ds) ∧ x ∈ cs := by
  intro n
  induction n with
  | Leaf cs ds =>
    intro b x _ hx
    exact ⟨cs, ds, by rw [walkNode], hx⟩
  | Inner left right ihl ihr =>
    intro b x h hx
    rw [routeInv] at h
    simp only [Bool.and_eq_true] at h
    obtain ⟨⟨⟨hall_l, hall_r⟩, hrl⟩, hrr⟩ := h
    rw [Node.allContacts] at hx
    rcases List.mem_append.mp hx with hx' | hx'
    · have hdl : determine_node x.id b = some Direction.Left := by
        have hall := List.all_eq_true.mp hall_l x hx'
        rwa [decide_eq_true_iff] at hall
      obtain ⟨cs, ds, hw, hmem⟩ := ihl (b + 1) x hrl hx'
      refine ⟨cs, ds, ?_, hmem⟩
      rw [walkNode, hdl]
      exact hw
    · have hdr : determine_node x.id b = some Direction.Right := by
        have hall := List.all_eq_true.mp hall_r x hx'
        rwa [decide_eq_true_iff] at hall
      obtain ⟨cs, ds, hw, hmem⟩ := ihr (b + 1) x hrr hx'
      refine ⟨cs, ds, ?_, hmem⟩
      rw [walkNode, hdr]
      exact hw

/-- C10: in every Kbucket over fixed-length identifiers reachable from `new`
by add and remove calls, each identity occurs at most once in the whole trie,
and every stored contact sits in exactly the leaf reached by the
bit-addressing walk for its identity. -/
theorem C10_identity_unique_and_located :
    ∀ (L : Nat) (node_id : List Nat) (kOpt pOpt : Option Nat) (ops : List Op) (kb : Kbucket),
      node_id.length = L → (∀ op ∈ ops, Op.idLen L op) →
      applyOps (Kbucket.new node_id kOpt pOpt) ops = Res.ok kb →
      (∀ x : List Nat, (kb.root.allContacts.filter (fun y => y.id == x)).length ≤ 1) ∧
      (∀ c ∈ kb.root.allContacts, ∃ cs ds, walkNode kb.root c.id 0 = some (cs, ds) ∧ c ∈ cs) := by
  intro L node_id kOpt pOpt ops kb _ _ h
  have hr0 : routeInv (Kbucket.new node_id kOpt pOpt).root 0 = true := rfl
  have hr := applyOps_route ops (Kbucket.new node_id kOpt pOpt) kb h hr0
  exact ⟨fun x => routeInv_filter_le_one x kb.root 0 hr,
    fun c hc => routeInv_mem_walk kb.root 0 c hr hc⟩

/-- Witness for C10 after adding the identities `[1]` and `[2]`. -/
theorem C10_identity_unique_and_located_witness :
    (∀ x : List Nat,
      (((⟨[0], 20, 3, Node.Leaf [⟨[1], 0⟩, ⟨[2], 0⟩] false⟩ :
        Kbucket).root.allContacts.filter (fun y => y.id == x)).length ≤ 1)) ∧
    (∀ c ∈ (⟨[0], 20, 3, Node.Leaf [⟨[1], 0⟩, ⟨[2], 0⟩] false⟩ : Kbucket).root.allContacts,
      ∃ cs ds, walkNode (⟨[0], 20, 3, Node.Leaf [⟨[1], 0⟩, ⟨[2], 0⟩] false⟩ :
        Kbucket).root c.id 0 = some (cs, ds) ∧ c ∈ cs) :=
  C10_identity_unique_and_located 1 [0] none none [Op.addC ⟨[1], 0⟩, Op.addC ⟨[2], 0⟩]
    ⟨[0], 20, 3, Node.Leaf [⟨[1], 0⟩, ⟨[2], 0⟩] false⟩ rfl
    (by
      intro op hop
      simp only [List.mem_cons, List.not_mem_nil, or_false] at hop
      rcases hop with rfl | rfl <;> rfl)
    (by decide)

/-! ### Totality and bit characterization of the bit-addressing rule -/

theorem determine_node_testBit (id : List Nat) (b : Nat) (hb : b < 8 * id.length) :
    determine_node id b = some (if Nat.testBit (id.getD (b / 8) 0) (7 - b % 8)
      then Direction.Right else Direction.Left) := by
  have hlt : b / 8 < id.length := (Nat.div_lt_iff_lt_mul (by norm_num)).mpr (by omega)
  have hnotle : ¬(id.length ≤ b / 8 ∧ b % 8 ≠ 0) := fun hcon =>
    absurd hcon.1 (Nat.not_le.mpr hlt)
  have hget : id.get? (b / 8) = some (id.getD (b / 8) 0) := by
    rw [List.get?_eq_get hlt, List.getD_eq_getElem?_getD, List.getElem?_eq_getElem hlt]
    rfl
  have hbit : (0 < id.getD (b / 8) 0 &&& (1 <<< (7 - b % 8))) ↔
      Nat.testBit (id.getD (b / 8) 0) (7 - b % 8) = true := by
    rw [Nat.one_shiftLeft, Nat.and_two_pow]
    cases htb : Nat.testBit (id.getD (b / 8) 0) (7 - b % 8)
    · simp
    · simp [Nat.two_pow_pos]
  simp only [determine_node, hget]
  rw [if_neg hnotle]
  by_cases ht : Nat.testBit (id.getD (b / 8) 0) (7 - b % 8) = true
  · rw [if_pos (hbit.mpr ht), if_pos ht]
  · rw [if_neg (fun hc => ht (hbit.mp hc)), if_neg ht]

theorem determine_node_isSome (id : List Nat) (b : Nat) (hb : b < 8 * id.length) :
    ∃ d, determine_node id b = some d :=
  ⟨_, determine_node_testBit id b hb⟩

/-- Unfolded meaning of identifier well-formedness. -/
theorem idOK_spec (len : Nat) (id : List Nat) :
    idOK len id = true ↔ id.length = len ∧ ∀ v ∈ id, v < 256 := by
  rw [idOK, Bool.and_eq_true, List.all_eq_true]
  simp

/-- Two well-formed identifiers that route identically at every bit below
their bit length are equal. -/
theorem id_eq_of_dirs_eq (L : Nat) (x y : List Nat)
    (hx : idOK L x = true) (hy : idOK L y = true)
    (hagree : ∀ b, b < 8 * L → determine_node x b = determine_node y b) : x = y := by
  obtain ⟨hxl, hxb⟩ := (idOK_spec L x).mp hx
  obtain ⟨hyl, hyb⟩ := (idOK_spec L y).mp hy
  refine List.ext_getElem (hxl.trans hyl.symm) ?_
  intro i h1 h2
  refine Nat.eq_of_testBit_eq ?_
  intro j
  by_cases hj : j < 8
  · set b := 8 * i + (7 - j) with hbdef
    have hiL : i < L := by omega
    have hbL : b < 8 * L := by omega
    have hdiv : b / 8 = i := by
      rw [hbdef, Nat.add_comm, Nat.add_mul_div_left _ _ (by norm_num : (0 : Nat) < 8)]
      have h78 : (7 - j) / 8 = 0 := Nat.div_eq_of_lt (by omega)
      omega
    have hmod : 7 - b % 8 = j := by
      rw [hbdef, Nat.add_comm, Nat.add_mul_mod_self_left]
      rw [Nat.mod_eq_of_lt (by omega)]
      omega
    have htx := determine_node_testBit x b (by omega)
    have hty := determine_node_testBit y b (by omega)
    have heq := (htx.symm.trans ((hagree b hbL).trans hty))
    rw [hdiv, hmod] at heq
    have hgx : x.getD i 0 = x[i] := by
      rw [List.getD_eq_getElem?_getD, List.getElem?_eq_getElem h1]
      rfl
    have hgy : y.getD i 0 = y[i] := by
      rw [List.getD_eq_getElem?_getD, List.getElem?_eq_getElem h2]
      rfl
    rw [hgx, hgy] at heq
    by_cases htbx : Nat.testBit x[i] j = true
    · by_cases htby : Nat.testBit y[i] j = true
      · rw [htbx, htby]
      · rw [if_pos htbx, if_neg htby] at heq
        exact absurd (Option.some.inj heq) (by simp)
    · by_cases htby : Nat.testBit y[i] j = true
      · rw [if_neg htbx, if_pos htby] at heq
        exact absurd (Option.some.inj heq) (by simp)
      · rw [Bool.not_eq_true] at htbx htby
        rw [htbx, htby]
  · have hxi : x[i] < 256 := hxb _ (List.getElem_mem h1)
    have hyi : y[i] < 256 := hyb _ (List.getElem_mem h2)
    have hfx : Nat.testBit x[i] j = false := by
      apply Nat.testBit_lt_two_pow
      calc x[i] < 256 := hxi
        _ = 2 ^ 8 := by norm_num
        _ ≤ 2 ^ j := Nat.pow_le_pow_right (by norm_num) (by omega)
    have hfy : Nat.testBit y[i] j = false := by
      apply Nat.testBit_lt_two_pow
      calc y[i] < 256 := hyi
        _ = 2 ^ 8 := by norm_num
        _ ≤ 2 ^ j := Nat.pow_le_pow_right (by norm_num) (by omega)
    rw [hfx, hfy]

/-! ### Walks through spine-shaped tries never panic -/

theorem isLeaf_eq (n : Node) (h : n.isLeaf = true) :
    ∃ cs ds, n = Node.Leaf cs ds := by
  cases n with
  | Inner l r => rw [Node.isLeaf] at h; exact Bool.noConfusion h
  | Leaf cs ds => exact ⟨cs, ds, rfl⟩

theorem spineInv_of_isLeaf (L : Nat) (nid : List Nat) (n : Node) (b : Nat)
    (h : n.isLeaf = true) : spineInv L nid n b = true := by
  obtain ⟨cs, ds, rfl⟩ := isLeaf_eq n h
  rw [spineInv]

theorem spine_walk (L : Nat) (nid id : List Nat) (hid : id.length = L) :
    ∀ (n : Node) (b : Nat), spineInv L nid n b = true → b ≤ 8 * L →
      (∃ cs ds, walkNode n id b = some (cs, ds)) ∧ walkDepth n id b ≤ 8 * L := by
  intro n
  induction n with
  | Leaf cs ds =>
    intro b _ hb
    exact ⟨⟨cs, ds, by rw [walkNode]⟩, by rw [walkDepth]; exact hb⟩
  | Inner left right ihl ihr =>
    intro b hs hb
    rw [spineInv, Bool.and_eq_true, decide_eq_true_iff] at hs
    obtain ⟨hbL, hs⟩ := hs
    obtain ⟨dir, hdir⟩ := determine_node_isSome id b (by omega)
    have hchildren : spineInv L nid left (b + 1) = true ∧
        spineInv L nid right (b + 1) = true := by
      cases hdnn : determine_node nid b with
      | none => rw [hdnn] at hs; exact Bool.noConfusion hs
      | some d =>
        rw [hdnn] at hs
        cases d with
        | Left =>
          rw [Bool.and_eq_true] at hs
          exact ⟨hs.1, spineInv_of_isLeaf L nid right (b + 1) hs.2⟩
        | Right =>
          rw [Bool.and_eq_true] at hs
          exact ⟨spineInv_of_isLeaf L nid left (b + 1) hs.1, hs.2⟩
    cases dir with
    | Left =>
      obtain ⟨hw, hd⟩ := ihl (b + 1) hchildren.1 (by omega)
      refine ⟨?_, ?_⟩
      · obtain ⟨cs, ds, hw'⟩ := hw
        refine ⟨cs, ds, ?_⟩
        rw [walkNode, hdir]
        exact hw'
      · rw [walkDepth, hdir]
        exact hd
    | Right =>
      obtain ⟨hw, hd⟩ := ihr (b + 1) hchildren.2 (by omega)
      refine ⟨?_, ?_⟩
      · obtain ⟨cs, ds, hw'⟩ := hw
        refine ⟨cs, ds, ?_⟩
        rw [walkNode, hdir]
        exact hw'
      · rw [walkDepth, hdir]
        exact hd

theorem removeNode_total (L : Nat) (nid id : List Nat) (hid : id.length = L) :
    ∀ (n : Node) (b : Nat), spineInv L nid n b = true → b ≤ 8 * L →
      ∃ n', removeNode n id b = some n' := by
  intro n
  induction n with
  | Leaf cs ds =>
    intro b _ _
    exact ⟨_, by rw [removeNode]⟩
  | Inner left right ihl ihr =>
    intro b hs hb
    rw [spineInv, Bool.and_eq_true, decide_eq_true_iff] at hs
    obtain ⟨hbL, hs⟩ := hs
    obtain ⟨dir, hdir⟩ := determine_node_isSome id b (by omega)
    have hchildren : spineInv L nid left (b + 1) = true ∧
        spineInv L nid right (b + 1) = true := by
      cases hdnn : determine_node nid b with
      | none => rw [hdnn] at hs; exact Bool.noConfusion hs
      | some d =>
        rw [hdnn] at hs
        cases d with
        | Left =>
          rw [Bool.and_eq_true] at hs
          exact ⟨hs.1, spineInv_of_isLeaf L nid right (b + 1) hs.2⟩
        | Right =>
          rw [Bool.and_eq_true] at hs
          exact ⟨spineInv_of_isLeaf L nid left (b + 1) hs.1, hs.2⟩
    cases dir with
    | Left =>
      obtain ⟨l', hl'⟩ := ihl (b + 1) hchildren.1 (by omega)
      refine ⟨Node.Inner l' right, ?_⟩
      rw [removeNode, hdir, hl']
      rfl
    | Right =>
      obtain ⟨r', hr'⟩ := ihr (b + 1) hchildren.2 (by omega)
      refine ⟨Node.Inner left r', ?_⟩
      rw [removeNode, hdir, hr']
      rfl

/-! ### Identifier well-formedness is preserved -/

theorem idsOK_iff (L : Nat) : ∀ (n : Node),
    idsOK L n = true ↔ ∀ x ∈ n.allContacts, idOK L x.id = true := by
  intro n
  induction n with
  | Leaf cs ds =>
    rw [idsOK, Node.allContacts, List.all_eq_true]
  | Inner l r ihl ihr =>
    rw [idsOK, Bool.and_eq_true, Node.allContacts]
    constructor
    · rintro ⟨h1, h2⟩ x hx
      rcases List.mem_append.mp hx with hx' | hx'
      · exact ihl.mp h1 x hx'
      · exact ihr.mp h2 x hx'
    · intro h
      exact ⟨ihl.mpr (fun x hx => h x (List.mem_append.mpr (Or.inl hx))),
        ihr.mpr (fun x hx => h x (List.mem_append.mpr (Or.inr hx)))⟩

theorem idsOK_addPass (L : Nat) (nid : List Nat) (k : Nat) (c : Contact)
    (hc : idOK L c.id = true) (n : Node) (b : Nat) (n' : Node) (retry : Bool)
    (evs : List Event) (hn : idsOK L n = true)
    (h : addPass nid k c n b = some (n', retry, evs)) : idsOK L n' = true := by
  rw [idsOK_iff] at hn ⊢
  intro x hx
  rcases addPass_mem nid k c n b n' retry evs h x hx with hin | rfl
  · exact hn x hin
  · exact hc

theorem idsOK_removeNode (L : Nat) (id : List Nat) (n : Node) (b : Nat) (n' : Node)
    (hn : idsOK L n = true) (h : removeNode n id b = some n') : idsOK L n' = true := by
  rw [idsOK_iff] at hn ⊢
  intro x hx
  exact hn x (removeNode_mem id n b n' h x hx)

/-! ### One pass of add over a frozen leaf, and totality of one pass -/

theorem addPass_frozen_leaf (nid : List Nat) (k : Nat) (c : Contact)
    (cs : List Contact) (b : Nat) :
    ∃ cs', addPass nid k c (Node.Leaf cs true) b = some (Node.Leaf cs' true, false, []) := by
  cases hidx : index_of cs c.id with
  | some j =>
    refine ⟨update cs j c, ?_⟩
    rw [addPass, hidx]
  | none =>
    by_cases hlt : cs.length < k
    · refine ⟨cs ++ [c], ?_⟩
      rw [addPass, hidx]
      simp [hlt]
    · refine ⟨cs, ?_⟩
      rw [addPass, hidx]
      simp [hlt]

theorem distribute_total :
    ∀ (cs : List Contact) (b : Nat),
      (∀ x ∈ cs, ∃ d, determine_node x.id b = some d) →
      ∃ l r, distribute cs b = some (l, r) := by
  intro cs
  induction cs with
  | nil => intro b _; exact ⟨[], [], by rw [distribute]⟩
  | cons c rest ih =>
    intro b h
    obtain ⟨d, hd⟩ := h c (List.mem_cons_self c rest)
    obtain ⟨l, r, hlr⟩ := ih b (fun x hx => h x (List.mem_cons_of_mem c hx))
    cases d with
    | Left => exact ⟨c :: l, r, by rw [distribute, hd, hlr]⟩
    | Right => exact ⟨l, c :: r, by rw [distribute, hd, hlr]⟩

/-- Main totality lemma of one `add` pass over a well-formed spine: the pass
never panics, keeps the spine shape, and a retrying pass (a split) pushes the
walk for the new contact exactly one level deeper. -/
theorem addPass_total_spine (L : Nat) (nid : List Nat) (k : Nat) (c : Contact)
    (hnid : nid.length = L) (hk : 1 ≤ k) (hc : idOK L c.id = true) :
    ∀ (n : Node) (b : Nat) (p : Bool),
      spineInv L nid n b = true → flagInv nid n b p = true → routeInv n b = true →
      idsOK L n = true → b ≤ 8 * L →
      (∀ x ∈ n.allContacts, ∀ j, j < b → determine_node x.id j = determine_node c.id j) →
      ∃ n' retry evs, addPass nid k c n b = some (n', retry, evs) ∧
        spineInv L nid n' b = true ∧
        (retry = true → walkDepth n' c.id b = walkDepth n c.id b + 1) := by
  intro n
  induction n with
  | Leaf cs ds =>
    intro b p hs hf hr hids hb hH
    cases hidx : index_of cs c.id with
    | some j =>
      refine ⟨Node.Leaf (update cs j c) ds, false, [], ?_, by rw [spineInv],
        fun hcon => Bool.noConfusion hcon⟩
      rw [addPass, hidx]
    | none =>
      by_cases hlt : cs.length < k
      · refine ⟨Node.Leaf (cs ++ [c]) ds, false, [], ?_, by rw [spineInv],
          fun hcon => Bool.noConfusion hcon⟩
        rw [addPass, hidx]
        simp [hlt]
      · cases hds : ds with
        | true =>
          refine ⟨Node.Leaf cs true, false, [], ?_, by rw [spineInv],
            fun hcon => Bool.noConfusion hcon⟩
          rw [addPass, hidx]
          simp [hlt]
        | false =>
          have hbne : b ≠ 8 * L := by
            intro hbeq
            have hne : cs ≠ [] := by
              intro hnil
              rw [hnil] at hlt
              simp at hlt
              omega
            obtain ⟨x, hx⟩ := List.exists_mem_of_ne_nil cs hne
            have hxid : x.id = c.id := by
              apply id_eq_of_dirs_eq L x.id c.id
              · exact (idsOK_iff L _).mp hids x hx
              · exact hc
              · intro b' hb'
                exact hH x hx b' (by omega)
            exact (index_of_none_iff cs c.id).mp hidx x hx hxid
          have hbL : b < 8 * L := by omega
          have hcl : c.id.length = L := ((idOK_spec L c.id).mp hc).1
          have hdtotal : ∀ x ∈ cs, ∃ d, determine_node x.id b = some d := by
            intro x hx
            have hxl : x.id.length = L :=
              ((idOK_spec L x.id).mp ((idsOK_iff L _).mp hids x hx)).1
            exact determine_node_isSome x.id b (by omega)
          obtain ⟨l, r, hdist⟩ := distribute_total cs b hdtotal
          obtain ⟨sd, hsd⟩ := determine_node_isSome nid b (by omega)
          obtain ⟨cdir, hcdir⟩ := determine_node_isSome c.id b (by omega)
          refine ⟨Node.Inner (Node.Leaf l (decide (sd = Direction.Right)))
            (Node.Leaf r (decide (sd = Direction.Left))), true, [], ?_, ?_, ?_⟩
          · rw [addPass, hidx]
            simp only [if_neg hlt, Bool.false_eq_true, if_false]
            rw [split, hdist, hsd]
            rfl
          · rw [spineInv, hsd]
            cases sd <;> simp [spineInv, Node.isLeaf, hbL]
          · intro _
            cases cdir <;> simp [walkDepth, hcdir]
  | Inner left right ihl ihr =>
    intro b p hs hf hr hids hb hH
    rw [spineInv, Bool.and_eq_true, decide_eq_true_iff] at hs
    obtain ⟨hbL, hs⟩ := hs
    rw [flagInv] at hf
    rw [routeInv] at hr
    simp only [Bool.and_eq_true] at hr
    obtain ⟨⟨⟨hall_l, hall_r⟩, hrl⟩, hrr⟩ := hr
    rw [idsOK, Bool.and_eq_true] at hids
    obtain ⟨hids_l, hids_r⟩ := hids
    have hcl : c.id.length = L := ((idOK_spec L c.id).mp hc).1
    obtain ⟨cdir, hcdir⟩ := determine_node_isSome c.id b (by omega)
    cases hdnn : determine_node nid b with
    | none => rw [hdnn] at hs; exact Bool.noConfusion hs
    | some d =>
      rw [hdnn] at hs hf
      simp only [Bool.and_eq_true] at hs hf
      obtain ⟨hfl, hfr⟩ := hf
      cases cdir with
      | Left =>
        have hH' : ∀ x ∈ left.allContacts, ∀ j, j < b + 1 →
            determine_node x.id j = determine_node c.id j := by
          intro x hx j hj
          by_cases hjb : j < b
          · exact hH x (List.mem_append.mpr (Or.inl hx)) j hjb
          · obtain rfl : j = b := by omega
            have hroute := List.all_eq_true.mp hall_l x hx
            rw [decide_eq_true_iff] at hroute
            rw [hroute, hcdir]
        cases d with
        | Left =>
          replace hs : spineInv L nid left (b + 1) = true ∧ right.isLeaf = true := by
            simpa using hs
          obtain ⟨left', retry, evs, hpass, hspine', hdepth⟩ :=
            ihl (b + 1) (p && decide (Direction.Left = Direction.Left)) hs.1 hfl hrl
              hids_l (by omega) hH'
          refine ⟨Node.Inner left' right, retry, evs, ?_, ?_, ?_⟩
          · rw [addPass, hcdir, hpass]
            rfl
          · rw [spineInv, hdnn]
            simp only [Bool.and_eq_true, decide_eq_true_iff]
            exact ⟨hbL, hspine', hs.2⟩
          · intro hretry
            rw [walkDepth, hcdir, walkDepth, hcdir]
            exact hdepth hretry
        | Right =>
          replace hs : left.isLeaf = true ∧ spineInv L nid right (b + 1) = true := by
            simpa using hs
          obtain ⟨cs0, ds0, rfl⟩ := isLeaf_eq left hs.1
          have hds0 : ds0 = true := by
            rw [flagInv] at hfl
            simpa using hfl
          subst hds0
          obtain ⟨cs', hpass⟩ := addPass_frozen_leaf nid k c cs0 (b + 1)
          refine ⟨Node.Inner (Node.Leaf cs' true) right, false, [], ?_, ?_,
            fun hcon => Bool.noConfusion hcon⟩
          · rw [addPass, hcdir, hpass]
            rfl
          · rw [spineInv, hdnn]
            simp only [Bool.and_eq_true, decide_eq_true_iff]
            exact ⟨hbL, by rw [Node.isLeaf], hs.2⟩
      | Right =>
        have hH' : ∀ x ∈ right.allContacts, ∀ j, j < b + 1 →
            determine_node x.id j = determine_node c.id j := by
          intro x hx j hj
          by_cases hjb : j < b
          · exact hH x (List.mem_append.mpr (Or.inr hx)) j hjb
          · obtain rfl : j = b := by omega
            have hroute := List.all_eq_true.mp hall_r x hx
            rw [decide_eq_true_iff] at hroute
            rw [hroute, hcdir]
        cases d with
        | Right =>
          replace hs : left.isLeaf = true ∧ spineInv L nid right (b + 1) = true := by
            simpa using hs
          obtain ⟨right', retry, evs, hpass, hspine', hdepth⟩ :=
            ihr (b + 1) (p && decide (Direction.Right = Direction.Right)) hs.2 hfr hrr
              hids_r (by omega) hH'
          refine ⟨Node.Inner left right', retry, evs, ?_, ?_, ?_⟩
          · rw [addPass, hcdir, hpass]
            rfl
          · rw [spineInv, hdnn]
            simp only [Bool.and_eq_true, decide_eq_true_iff]
            exact ⟨hbL, hs.1, hspine'⟩
          · intro hretry
            rw [walkDepth, hcdir, walkDepth, hcdir]
            exact hdepth hretry
        | Left =>
          replace hs : spineInv L nid left (b + 1) = true ∧ right.isLeaf = true := by
            simpa using hs
          obtain ⟨cs0, ds0, rfl⟩ := isLeaf_eq right hs.2
          have hds0 : ds0 = true := by
            rw [flagInv] at hfr
            simpa using hfr
          subst hds0
          obtain ⟨cs', hpass⟩ := addPass_frozen_leaf nid k c cs0 (b + 1)
          refine ⟨Node.Inner left (Node.Leaf cs' true), false, [], ?_, ?_,
            fun hcon => Bool.noConfusion hcon⟩
          · rw [addPass, hcdir, hpass]
            rfl
          · rw [spineInv, hdnn]
            simp only [Bool.and_eq_true, decide_eq_true_iff]
            exact ⟨hbL, hs.1, by rw [Node.isLeaf]⟩

/-! ### Totality of the add loop on well-formed tables -/

theorem addLoop_total (L : Nat) :
    ∀ (fuel : Nat) (kb : Kbucket) (c : Contact),
      Inv L kb → idOK L c.id = true →
      8 * L + 1 ≤ fuel + walkDepth kb.root c.id 0 →
      ∃ kb' evs, addLoop fuel kb c = Res.ok (kb', evs) ∧ Inv L kb' := by
  intro fuel
  induction fuel with
  | zero =>
    intro kb c hInv hc hfuel
    exfalso
    obtain ⟨hnid, hk, hroute, hflag, hspine, hids⟩ := hInv
    have hcl : c.id.length = L := ((idOK_spec L c.id).mp hc).1
    have hwd := (spine_walk L kb.node_id c.id hcl kb.root 0 hspine (by omega)).2
    omega
  | succ fuel ih =>
    intro kb c hInv hc hfuel
    obtain ⟨hnid, hk, hroute, hflag, hspine, hids⟩ := hInv
    obtain ⟨root', retry, evs, hpass, hspine', hdepth⟩ :=
      addPass_total_spine L kb.node_id kb.nodes_per_kbucket c hnid hk hc kb.root 0 true
        hspine hflag hroute hids (by omega)
        (fun x hx j hj => absurd hj (Nat.not_lt_zero j))
    have hflag' := flagInv_addPass kb.node_id kb.nodes_per_kbucket c kb.root 0 true
      root' retry evs hflag hpass
    have hroute' := routeInv_addPass kb.node_id kb.nodes_per_kbucket c kb.root 0
      root' retry evs hroute hpass
    have hids' := idsOK_addPass L kb.node_id kb.nodes_per_kbucket c hc kb.root 0
      root' retry evs hids hpass
    have hInv₂ : Inv L (⟨kb.node_id, kb.nodes_per_kbucket, kb.nodes_to_ping, root'⟩ :
        Kbucket) := ⟨hnid, hk, hroute', hflag', hspine', hids'⟩
    cases retry with
    | false =>
      refine ⟨⟨kb.node_id, kb.nodes_per_kbucket, kb.nodes_to_ping, root'⟩, evs, ?_, hInv₂⟩
      rw [addLoop, hpass]
      rfl
    | true =>
      have hdep := hdepth rfl
      obtain ⟨kb', evs', hloop, hInv'⟩ :=
        ih ⟨kb.node_id, kb.nodes_per_kbucket, kb.nodes_to_ping, root'⟩ c hInv₂ hc (by
          show 8 * L + 1 ≤ fuel + walkDepth root' c.id 0
          rw [hdep]
          omega)
      refine ⟨kb', evs', ?_, hInv'⟩
      rw [addLoop, hpass]
      exact hloop

/-- Totality and invariance of the public `add` on a well-formed table. -/
theorem add_total (L : Nat) (kb : Kbucket) (c : Contact)
    (hInv : Inv L kb) (hc : idOK L c.id = true) :
    ∃ kb' evs, kb.add c = Res.ok (kb', evs) ∧ Inv L kb' := by
  rw [Kbucket.add]
  apply addLoop_total L _ kb c hInv hc
  have hcl : c.id.length = L := ((idOK_spec L c.id).mp hc).1
  have hnid : kb.node_id.length = L := hInv.1
  rw [hcl, hnid]
  omega

/-! ### Totality of the gathering loop of closest on spine-shaped tries -/

theorem closestGather_total (L : Nat) (nid id : List Nat) (hid : id.length = L)
    (n : Option Nat) :
    ∀ (fuel : Nat) (stack : List Node) (b : Nat) (acc : List Contact),
      nodesSize stack ≤ fuel →
      (∀ x ∈ stack, x.isLeaf = true ∨ spineInv L nid x b = true) →
      (stack.filter (fun x => !x.isLeaf)).length ≤ 1 →
      ∃ res, closestGather id n fuel stack b acc = some res := by
  intro fuel
  induction fuel with
  | zero =>
    intro stack b acc hsz hcond hcount
    cases stack with
    | nil => exact ⟨acc, by rw [closestGather]⟩
    | cons node rest =>
      exfalso
      have hp := Node.size_pos node
      simp [nodesSize] at hsz
      omega
  | succ fuel ih =>
    intro stack b acc hsz hcond hcount
    cases stack with
    | nil => exact ⟨acc, by rw [closestGather]⟩
    | cons node rest =>
      cases node with
      | Leaf cs ds =>
        by_cases hbc : breakCheck n acc.length = true
        · exact ⟨acc, by rw [closestGather, if_pos hbc]⟩
        · have hsz' : nodesSize rest ≤ fuel := by
            simp [nodesSize, Node.size] at hsz ⊢
            omega
          have hcount' : (rest.filter (fun x => !x.isLeaf)).length ≤ 1 := by
            rw [List.filter_cons] at hcount
            simpa [Node.isLeaf] using hcount
          obtain ⟨res, hres⟩ := ih rest b (acc ++ cs) hsz'
            (fun x hx => hcond x (List.mem_cons_of_mem _ hx)) hcount'
          exact ⟨res, by rw [closestGather, if_neg hbc, hres]⟩
      | Inner l r =>
        by_cases hbc : breakCheck n acc.length = true
        · exact ⟨acc, by rw [closestGather, if_pos hbc]⟩
        · have hspine : spineInv L nid (Node.Inner l r) b = true := by
            rcases hcond _ (List.mem_cons_self _ _) with hleaf | hsp
            · exact absurd hleaf (by rw [Node.isLeaf]; simp)
            · exact hsp
          rw [spineInv, Bool.and_eq_true, decide_eq_true_iff] at hspine
          obtain ⟨hbL, hsp⟩ := hspine
          obtain ⟨dir, hdir⟩ := determine_node_isSome id b (by omega)
          have hrest : ∀ x ∈ rest, x.isLeaf = true := by
            intro x hx
            by_contra hxl
            have hxmem : x ∈ rest.filter (fun y => !y.isLeaf) :=
              List.mem_filter.mpr ⟨hx, by simpa using hxl⟩
            have h1 : 1 ≤ (rest.filter (fun y => !y.isLeaf)).length :=
              List.length_pos.mpr (List.ne_nil_of_mem hxmem)
            have h2 : ((Node.Inner l r :: rest).filter (fun y => !y.isLeaf)).length =
                (rest.filter (fun y => !y.isLeaf)).length + 1 := by
              rw [List.filter_cons, if_pos (by rw [Node.isLeaf]; rfl)]
              simp
            omega
          have hchildren : (l.isLeaf = true ∨ spineInv L nid l (b + 1) = true) ∧
              (r.isLeaf = true ∨ spineInv L nid r (b + 1) = true) ∧
              (l.isLeaf = true ∨ r.isLeaf = true) := by
            cases hdnn : determine_node nid b with
            | none => rw [hdnn] at hsp; exact Bool.noConfusion hsp
            | some d =>
              rw [hdnn] at hsp
              cases d with
              | Left =>
                replace hsp : spineInv L nid l (b + 1) = true ∧ r.isLeaf = true := by
                  simpa using hsp
                exact ⟨Or.inr hsp.1, Or.inl hsp.2, Or.inr hsp.2⟩
              | Right =>
                replace hsp : l.isLeaf = true ∧ spineInv L nid r (b + 1) = true := by
                  simpa using hsp
                exact ⟨Or.inl hsp.1, Or.inr hsp.2, Or.inl hsp.1⟩
          obtain ⟨hcL, hcR, hone⟩ := hchildren
          have hcount2 : ∀ a c' : Node, a.isLeaf = true ∨ c'.isLeaf = true →
              ((a :: c' :: rest).filter (fun x => !x.isLeaf)).length ≤ 1 := by
            intro a c' hac
            have hfilrest : rest.filter (fun x => !x.isLeaf) = [] := by
              rw [List.filter_eq_nil_iff]
              intro y hy
              simp [hrest y hy]
            rw [List.filter_cons, List.filter_cons, hfilrest]
            rcases hac with ha | hcc
            · rw [if_neg (by simp [ha])]
              cases hc' : c'.isLeaf <;> simp [hc']
            · cases ha' : a.isLeaf <;> simp [ha', hcc]
          have hcond2 : ∀ a c' : Node,
              (a.isLeaf = true ∨ spineInv L nid a (b + 1) = true) →
              (c'.isLeaf = true ∨ spineInv L nid c' (b + 1) = true) →
              ∀ x ∈ a :: c' :: rest, x.isLeaf = true ∨ spineInv L nid x (b + 1) = true := by
            intro a c' haC hcC x hx
            rcases List.mem_cons.mp hx with rfl | hx'
            · exact haC
            · rcases List.mem_cons.mp hx' with rfl | hx''
              · exact hcC
              · exact Or.inl (hrest x hx'')
          have hsz2l : nodesSize (l :: r :: rest) ≤ fuel := by
            simp [nodesSize, Node.size] at hsz ⊢
            omega
          have hsz2r : nodesSize (r :: l :: rest) ≤ fuel := by
            simp [nodesSize, Node.size] at hsz ⊢
            omega
          cases dir with
          | Left =>
            obtain ⟨res, hres⟩ := ih (l :: r :: rest) (b + 1) acc hsz2l
              (hcond2 l r hcL hcR) (hcount2 l r hone)
            exact ⟨res, by rw [closestGather, if_neg hbc, hdir, hres]⟩
          | Right =>
            obtain ⟨res, hres⟩ := ih (r :: l :: rest) (b + 1) acc hsz2r
              (hcond2 r l hcR hcL) (hcount2 r l hone.symm)
            exact ⟨res, by rw [closestGather, if_neg hbc, hdir, hres]⟩

/-- The iterator visits exactly the stored contacts (right subtrees first). -/
theorem iterLoop_exact :
    ∀ (fuel : Nat) (nodes : List Node), nodesSize nodes ≤ fuel →
      (iterLoop fuel nodes).Perm (nodesContacts nodes) := by
  intro fuel
  induction fuel with
  | zero =>
    intro nodes h
    cases nodes with
    | nil => rw [iterLoop, nodesContacts]
    | cons node rest =>
      exfalso
      have hp := Node.size_pos node
      simp [nodesSize] at h
      omega
  | succ fuel ih =>
    intro nodes h
    cases nodes with
    | nil => rw [iterLoop, nodesContacts]
    | cons node rest =>
      cases node with
      | Inner l r =>
        have hsz : nodesSize (r :: l :: rest) ≤ fuel := by
          simp [nodesSize, Node.size] at h ⊢
          omega
        rw [iterLoop]
        refine (ih (r :: l :: rest) hsz).trans ?_
        have hswap : (nodesContacts (r :: l :: rest)).Perm (nodesContacts (l :: r :: rest)) := by
          simp only [nodesContacts]
          rw [← List.append_assoc, ← List.append_assoc]
          exact List.Perm.append_right (nodesContacts rest) List.perm_append_comm
        refine hswap.trans ?_
        have heq : nodesContacts (l :: r :: rest) =
            nodesContacts (Node.Inner l r :: rest) := by
          simp [nodesContacts, Node.allContacts]
        rw [heq]
      | Leaf cs ds =>
        have hsz : nodesSize rest ≤ fuel := by
          simp [nodesSize, Node.size] at h ⊢
          omega
        rw [iterLoop]
        simp only [nodesContacts, Node.allContacts]
        exact List.Perm.append_left cs (ih rest hsz)

/-- C8: on a well-formed Kbucket over fixed-length identifiers every core
operation runs to completion deterministically: add (including its
split-and-retry recursion, each split walking one bit deeper and the walk
bounded by the identifier bit length) returns a result, remove, get and
closest never hit the modelled panic, len equals the total stored-contact
count, and the iterator terminates having produced exactly the stored
contacts. -/
theorem C8_operations_terminate :
    ∀ (L : Nat) (kb : Kbucket) (c : Contact) (id : List Nat) (n : Option Nat),
      Inv L kb → idOK L c.id = true → idOK L id = true →
      (∃ kb' evs, kb.add c = Res.ok (kb', evs)) ∧
      (∃ kb', kb.remove id = some kb') ∧
      (∃ r, kb.get id = some r) ∧
      (∃ res, kb.closest id n = some res) ∧
      kb.len = kb.root.allContacts.length ∧
      kb.iterate.Perm kb.root.allContacts := by
  intro L kb c id n hInv hc hid
  obtain ⟨hnid, hk, hroute, hflag, hspine, hids⟩ := hInv
  have hidl : id.length = L := ((idOK_spec L id).mp hid).1
  refine ⟨?_, ?_, ?_, ?_, ?_, ?_⟩
  · obtain ⟨kb', evs, hadd, -⟩ :=
      add_total L kb c ⟨hnid, hk, hroute, hflag, hspine, hids⟩ hc
    exact ⟨kb', evs, hadd⟩
  · obtain ⟨root', hroot'⟩ :=
      removeNode_total L kb.node_id id hidl kb.root 0 hspine (by omega)
    exact ⟨_, by rw [Kbucket.remove, hroot']; rfl⟩
  · obtain ⟨⟨cs, ds, hwalk⟩, -⟩ :=
      spine_walk L kb.node_id id hidl kb.root 0 hspine (by omega)
    exact ⟨_, by rw [Kbucket.get, hwalk]; rfl⟩
  · obtain ⟨gs, hgs⟩ := closestGather_total L kb.node_id id hidl n
      (nodesSize [kb.root]) [kb.root] 0 [] (Nat.le_refl _)
      (by
        intro x hx
        obtain rfl : x = kb.root := by simpa using hx
        exact Or.inr hspine)
      (le_trans (List.length_filter_le _ _) (by simp))
    exact ⟨_, by rw [Kbucket.closest, hgs]; rfl⟩
  · exact len_eq_allContacts_length kb
  · rw [Kbucket.iterate]
    refine (iterLoop_exact (nodesSize [kb.root]) [kb.root] (Nat.le_refl _)).trans ?_
    have heq : nodesContacts [kb.root] = kb.root.allContacts := by
      simp [nodesContacts]
    rw [heq]

/-- Witness for C8 at the reachable well-formed state `frozenFullKb`. -/
theorem C8_operations_terminate_witness :
    (∃ kb' evs, frozenFullKb.add ⟨[0x22], 0⟩ = Res.ok (kb', evs)) ∧
    (∃ kb', frozenFullKb.remove [0x05] = some kb') ∧
    (∃ r, frozenFullKb.get [0x05] = some r) ∧
    (∃ res, frozenFullKb.closest [0x05] (some 2) = some res) ∧
    frozenFullKb.len = frozenFullKb.root.allContacts.length ∧
    frozenFullKb.iterate.Perm frozenFullKb.root.allContacts :=
  C8_operations_terminate 1 frozenFullKb ⟨[0x22], 0⟩ [0x05] (some 2)
    ⟨rfl, by decide, by decide, by decide, by decide, by decide⟩ (by decide) (by decide)

/-! ### Fresh tables fill one leaf and split exactly at capacity (C2) -/

theorem applyOps_append (ops1 : List Op) :
    ∀ (ops2 : List Op) (kb kb₂ : Kbucket), applyOps kb ops1 = Res.ok kb₂ →
      applyOps kb (ops1 ++ ops2) = applyOps kb₂ ops2 := by
  induction ops1 with
  | nil =>
    intro ops2 kb kb₂ h
    rw [applyOps] at h
    obtain rfl : kb = kb₂ := Res.ok.inj h
    rfl
  | cons op rest ih =>
    intro ops2 kb kb₂ h
    rw [applyOps] at h
    rw [List.cons_append, applyOps]
    cases hop : applyOp kb op with
    | ok kb₃ =>
      rw [hop] at h
      exact ih ops2 kb₃ kb₂ h
    | oob => rw [hop] at h; exact Res.noConfusion h
    | noFuel => rw [hop] at h; exact Res.noConfusion h

/-- Filling a below-capacity leaf root with fresh distinct identities just
appends them in order. -/
theorem fresh_adds (nid : List Nat) (k p : Nat) :
    ∀ (cs acc : List Contact),
      distinctIds (acc ++ cs) = true → acc.length + cs.length ≤ k →
      applyOps ⟨nid, k, p, Node.Leaf acc false⟩ (cs.map Op.addC) =
        Res.ok ⟨nid, k, p, Node.Leaf (acc ++ cs) false⟩ := by
  intro cs
  induction cs with
  | nil =>
    intro acc _ _
    simp [applyOps]
  | cons c rest ih =>
    intro acc hdist hlen
    rw [List.map_cons, applyOps]
    have hidx : index_of acc c.id = none := by
      rw [index_of_none_iff]
      intro x hx hxc
      rw [distinctIds_iff] at hdist
      exact (List.pairwise_append.mp hdist).2.2 x hx c (by simp) hxc
    have hlt : acc.length < k := by
      simp at hlen
      omega
    have hpass : addPass nid k c (Node.Leaf acc false) 0 =
        some (Node.Leaf (acc ++ [c]) false, false, []) := by
      rw [addPass, hidx]
      simp [hlt]
    have hadd : (⟨nid, k, p, Node.Leaf acc false⟩ : Kbucket).add c =
        Res.ok (⟨nid, k, p, Node.Leaf (acc ++ [c]) false⟩, []) :=
      addLoop_one (8 * c.id.length + 8 * nid.length + 1)
        ⟨nid, k, p, Node.Leaf acc false⟩ c (Node.Leaf (acc ++ [c]) false) [] hpass
    have hop : applyOp ⟨nid, k, p, Node.Leaf acc false⟩ (Op.addC c) =
        Res.ok ⟨nid, k, p, Node.Leaf (acc ++ [c]) false⟩ := by
      rw [applyOp, hadd]
    rw [hop]
    have hdist' : distinctIds ((acc ++ [c]) ++ rest) = true := by
      have heq : (acc ++ [c]) ++ rest = acc ++ (c :: rest) := by simp
      rw [heq]
      exact hdist
    have hlen' : (acc ++ [c]).length + rest.length ≤ k := by
      simp at hlen ⊢
      omega
    show applyOps ⟨nid, k, p, Node.Leaf (acc ++ [c]) false⟩ (List.map Op.addC rest) =
      Res.ok ⟨nid, k, p, Node.Leaf (acc ++ (c :: rest)) false⟩
    rw [show acc ++ (c :: rest) = (acc ++ [c]) ++ rest by simp]
    exact ih (acc ++ [c]) hdist' hlen'

theorem addPass_inner_result (nid : List Nat) (k : Nat) (c : Contact)
    (l r : Node) (b : Nat) (n' : Node) (retry : Bool) (evs : List Event)
    (h : addPass nid k c (Node.Inner l r) b = some (n', retry, evs)) :
    n'.isLeaf = false := by
  rw [addPass] at h
  cases hdn : determine_node c.id b with
  | none => rw [hdn] at h; exact Option.noConfusion h
  | some dir =>
    rw [hdn] at h
    cases dir with
    | Left =>
      obtain ⟨⟨l', retry', evs'⟩, hpass, heq⟩ := Option.map_eq_some'.mp h
      obtain rfl : Node.Inner l' r = n' := congrArg Prod.fst heq
      rw [Node.isLeaf]
    | Right =>
      obtain ⟨⟨r', retry', evs'⟩, hpass, heq⟩ := Option.map_eq_some'.mp h
      obtain rfl : Node.Inner l r' = n' := congrArg Prod.fst heq
      rw [Node.isLeaf]

theorem addLoop_inner_root :
    ∀ (fuel : Nat) (kb : Kbucket) (c : Contact) (kb' : Kbucket) (evs : List Event),
      addLoop fuel kb c = Res.ok (kb', evs) → kb.root.isLeaf = false →
      kb'.root.isLeaf = false := by
  intro fuel
  induction fuel with
  | zero =>
    intro kb c kb' evs h _
    rw [addLoop] at h
    exact Res.noConfusion h
  | succ fuel ih =>
    intro kb c kb' evs h hroot
    rw [addLoop] at h
    cases hpass : addPass kb.node_id kb.nodes_per_kbucket c kb.root 0 with
    | none => rw [hpass] at h; exact Res.noConfusion h
    | some t =>
      obtain ⟨root', retry, evs'⟩ := t
      rw [hpass] at h
      have hinner : root'.isLeaf = false := by
        cases hkbroot : kb.root with
        | Leaf cs ds =>
          rw [hkbroot, Node.isLeaf] at hroot
          exact Bool.noConfusion hroot
        | Inner l r =>
          rw [hkbroot] at hpass
          exact addPass_inner_result kb.node_id kb.nodes_per_kbucket c l r 0
            root' retry evs' hpass
      cases retry with
      | true =>
        replace h : addLoop fuel
            ⟨kb.node_id, kb.nodes_per_kbucket, kb.nodes_to_ping, root'⟩ c =
            Res.ok (kb', evs) := h
        exact ih ⟨kb.node_id, kb.nodes_per_kbucket, kb.nodes_to_ping, root'⟩ c kb' evs
          h hinner
      | false =>
        replace h : (Res.ok
            ((⟨kb.node_id, kb.nodes_per_kbucket, kb.nodes_to_ping, root'⟩ : Kbucket), evs') :
            Res (Kbucket × List Event)) = Res.ok (kb', evs) := h
        obtain heq : (⟨kb.node_id, kb.nodes_per_kbucket, kb.nodes_to_ping, root'⟩ :
            Kbucket) = kb' := congrArg Prod.fst (Res.ok.inj h)
        rw [← heq]
        exact hinner

theorem addLoop_ok_inner :
    ∀ (fuel : Nat) (kb : Kbucket) (c : Contact) (kb' : Kbucket) (evs : List Event)
      (root' : Node) (retry : Bool) (evs' : List Event),
      addLoop fuel kb c = Res.ok (kb', evs) →
      addPass kb.node_id kb.nodes_per_kbucket c kb.root 0 = some (root', retry, evs') →
      root'.isLeaf = false → kb'.root.isLeaf = false := by
  intro fuel
  cases fuel with
  | zero =>
    intro kb c kb' evs root' retry evs' h _ _
    rw [addLoop] at h
    exact Res.noConfusion h
  | succ fuel =>
    intro kb c kb' evs root' retry evs' h hpass hinner
    rw [addLoop, hpass] at h
    cases retry with
    | true =>
      replace h : addLoop fuel
          ⟨kb.node_id, kb.nodes_per_kbucket, kb.nodes_to_ping, root'⟩ c =
          Res.ok (kb', evs) := h
      exact addLoop_inner_root fuel
        ⟨kb.node_id, kb.nodes_per_kbucket, kb.nodes_to_ping, root'⟩ c kb' evs h hinner
    | false =>
      replace h : (Res.ok
          ((⟨kb.node_id, kb.nodes_per_kbucket, kb.nodes_to_ping, root'⟩ : Kbucket), evs') :
          Res (Kbucket × List Event)) = Res.ok (kb', evs) := h
      obtain heq : (⟨kb.node_id, kb.nodes_per_kbucket, kb.nodes_to_ping, root'⟩ :
          Kbucket) = kb' := congrArg Prod.fst (Res.ok.inj h)
      rw [← heq]
      exact hinner

/-- C2: a fresh Kbucket with capacity `k` keeps its root a single leaf holding
exactly the added contacts (`dont_split = false`) while at most `k` distinct
identities are added, and the `(k+1)`-th distinct identity turns the root into
an inner node. -/
theorem C2_leaf_capacity_and_split :
    ∀ (L : Nat) (nid : List Nat) (kOpt pOpt : Option Nat) (contacts : List Contact)
      (c : Contact),
      nid.length = L →
      (∀ x ∈ contacts ++ [c], idOK L x.id = true) →
      distinctIds (contacts ++ [c]) = true →
      1 ≤ kOpt.getD 20 →
      (contacts.length ≤ kOpt.getD 20 →
        applyOps (Kbucket.new nid kOpt pOpt) (contacts.map Op.addC) =
          Res.ok ⟨nid, kOpt.getD 20, pOpt.getD 3, Node.Leaf contacts false⟩) ∧
      (contacts.length = kOpt.getD 20 →
        ∃ kb', applyOps (Kbucket.new nid kOpt pOpt) ((contacts ++ [c]).map Op.addC) =
          Res.ok kb' ∧ kb'.root.isLeaf = false) := by
  intro L nid kOpt pOpt contacts c hnidL hidsall hdistall hk
  have hdist1 : distinctIds contacts = true := by
    rw [distinctIds_iff] at hdistall ⊢
    exact hdistall.sublist (List.sublist_append_left contacts [c])
  constructor
  · intro hlen
    exact fresh_adds nid (kOpt.getD 20) (pOpt.getD 3) contacts []
      (by simpa using hdist1) (by simpa using hlen)
  · intro hlenk
    have h1 : applyOps (Kbucket.new nid kOpt pOpt) (contacts.map Op.addC) =
        Res.ok ⟨nid, kOpt.getD 20, pOpt.getD 3, Node.Leaf contacts false⟩ :=
      fresh_adds nid (kOpt.getD 20) (pOpt.getD 3) contacts []
        (by simpa using hdist1) (by simp [hlenk])
    have hidxc : index_of contacts c.id = none := by
      rw [index_of_none_iff]
      intro x hx hxc
      rw [distinctIds_iff] at hdistall
      exact (List.pairwise_append.mp hdistall).2.2 x hx c (by simp) hxc
    have hne : contacts ≠ [] := by
      intro hnil
      rw [hnil] at hlenk
      simp at hlenk
      omega
    have hL1 : 1 ≤ L := by
      by_contra hL0
      obtain ⟨x, hx⟩ := List.exists_mem_of_ne_nil contacts hne
      have hxl : x.id.length = L :=
        ((idOK_spec L x.id).mp (hidsall x (List.mem_append.mpr (Or.inl hx)))).1
      have hcl : c.id.length = L :=
        ((idOK_spec L c.id).mp (hidsall c (by simp))).1
      have hxc : x.id = c.id := by
        have hx0 : x.id = [] := List.length_eq_zero.mp (by omega)
        have hc0 : c.id = [] := List.length_eq_zero.mp (by omega)
        rw [hx0, hc0]
      exact (index_of_none_iff contacts c.id).mp hidxc x hx hxc
    have hdt : ∀ x ∈ contacts, ∃ d, determine_node x.id 0 = some d := by
      intro x hx
      have hxl : x.id.length = L :=
        ((idOK_spec L x.id).mp (hidsall x (List.mem_append.mpr (Or.inl hx)))).1
      exact determine_node_isSome x.id 0 (by omega)
    obtain ⟨l, r, hd⟩ := distribute_total contacts 0 hdt
    obtain ⟨sd, hsd⟩ := determine_node_isSome nid 0 (by omega)
    have hns : split nid contacts 0 = some (Node.Inner
        (Node.Leaf l (decide (sd = Direction.Right)))
        (Node.Leaf r (decide (sd = Direction.Left)))) := by
      rw [split, hd, hsd]
    have hpass1 : addPass nid (kOpt.getD 20) c (Node.Leaf contacts false) 0 =
        some (Node.Inner (Node.Leaf l (decide (sd = Direction.Right)))
          (Node.Leaf r (decide (sd = Direction.Left))), true, []) := by
      have hnlt : ¬ contacts.length < kOpt.getD 20 := by
        rw [hlenk]
        exact Nat.lt_irrefl _
      rw [addPass, hidxc, if_neg hnlt, hns]
      rfl
    have hInv₁ : Inv L (⟨nid, kOpt.getD 20, pOpt.getD 3, Node.Leaf contacts false⟩ :
        Kbucket) := by
      refine ⟨hnidL, hk, ?_, rfl, rfl, ?_⟩
      · rw [routeInv]
        exact hdist1
      · rw [idsOK, List.all_eq_true]
        intro x hx
        exact hidsall x (List.mem_append.mpr (Or.inl hx))
    obtain ⟨kb₂, evs, hadd, -⟩ := add_total L
      ⟨nid, kOpt.getD 20, pOpt.getD 3, Node.Leaf contacts false⟩ c hInv₁
      (hidsall c (by simp))
    refine ⟨kb₂, ?_, ?_⟩
    · rw [List.map_append, applyOps_append (contacts.map Op.addC) _ _ _ h1]
      have hop : applyOp
          (⟨nid, kOpt.getD 20, pOpt.getD 3, Node.Leaf contacts false⟩ : Kbucket)
          (Op.addC c) = Res.ok kb₂ := by
        rw [applyOp, hadd]
      have hstep : applyOps
          (⟨nid, kOpt.getD 20, pOpt.getD 3, Node.Leaf contacts false⟩ : Kbucket)
          (Op.addC c :: []) = Res.ok kb₂ := by
        rw [applyOps, hop]
        rfl
      exact hstep
    · exact addLoop_ok_inner (8 * c.id.length + 8 * nid.length + 2)
        ⟨nid, kOpt.getD 20, pOpt.getD 3, Node.Leaf contacts false⟩ c kb₂ evs
        (Node.Inner (Node.Leaf l (decide (sd = Direction.Right)))
          (Node.Leaf r (decide (sd = Direction.Left)))) true [] hadd hpass1 rfl

/-- Witness for C2 at capacity `k = 1`: one add keeps the root a leaf, the
second distinct identity splits it. -/
theorem C2_leaf_capacity_and_split_witness :
    applyOps (Kbucket.new [0] (some 1) none) (([⟨[0x80], 0⟩] : List Contact).map Op.addC) =
      Res.ok ⟨[0], 1, 3, Node.Leaf [⟨[0x80], 0⟩] false⟩ ∧
    ∃ kb', applyOps (Kbucket.new [0] (some 1) none)
        ((([⟨[0x80], 0⟩] : List Contact) ++ ([⟨[0x40], 0⟩] : List Contact)).map Op.addC) =
          Res.ok kb' ∧
      kb'.root.isLeaf = false :=
  ⟨(C2_leaf_capacity_and_split 1 [0] (some 1) none [⟨[0x80], 0⟩] ⟨[0x40], 0⟩ rfl
      (by decide) (by decide) (by decide)).1 (by decide),
   (C2_leaf_capacity_and_split 1 [0] (some 1) none [⟨[0x80], 0⟩] ⟨[0x40], 0⟩ rfl
      (by decide) (by decide) (by decide)).2 (by decide)⟩

end Mainline
